import Mathlib

/-!
Verification of the promise/future cell and the DAG execution engine of the
`saltfishpr/pkg` repository (packages `future` and `dag`).

The development shallowly embeds the Go sources:

* `GoErr` models Go `error` values built from `errors.New` (a distinguished
  base error) and `fmt.Errorf("...: %w", err)` (a wrapping error); `GoErr.is`
  models `errors.Is` (identity on the unwrap chain).
* `Val` models Go `any` values as they are used by the DAG engine: primitive
  values, result maps (`map[NodeID]any`) and a marker wrapper used to observe
  interceptor application.
* `cellSeqSet` models a full, uninterrupted run of `state.set`
  (src/future/state.go) on a cell: the CAS loop reduces to the `isFree` test.
* `Cell2` and `c2step` give a fine-grained interleaving semantics of
  `state.set` and `state.subscribe` (one setter, K subscribers), with the
  lock-free continuation stack and the `sync.Once` latch of `callback`.
* `allOfRun` models `AllOf` (src/future/api.go): each source settling is an
  arrival event; arrivals are processed in an arbitrary order.
* `timeoutRun` models `Timeout`: the timer fire and the source settlement are
  two events processed in an arbitrary order.
* `readDeps`, `outsList` and `aggregate` model `DAGInstance.runNode` and
  `DAGInstance.RunAsync` (src/dag/dag.go, second listing): node outcomes are
  computed along a topological order, mirroring the pending-counter scheduler.
* `GDag`, `GDag.freeze`, `addNode`, `addSubGraph`, `newDAG` model the DAG
  definition layer, and `evalDag` models `Instantiate` + `Run` including
  interceptors, preset node results and nested sub-graph instantiation.
-/

/-- Go `error` values: `base s` is a distinguished error created by
`errors.New(s)`; `wrap msg e` is `fmt.Errorf(msg ++ ": %w", e)`. -/
inductive GoErr where
  | base (s : String)
  | wrap (msg : String) (inner : GoErr)
deriving DecidableEq, Repr

/-- `errors.Is`: walk the unwrap chain looking for the target error. -/
def GoErr.is : GoErr → GoErr → Bool
  | e@(.base _), t => e = t
  | e@(.wrap _ inner), t => e = t || inner.is t

/-- `ErrNodeSkipped` of package dag. -/
def errNodeSkipped : GoErr := .base ("DAG node is skipped")

/-- `ErrDAGNodeExists` of package dag. -/
def errDAGNodeExists : GoErr := .base ("DAG node already exists")

/-- `ErrDAGFrozen` of package dag. -/
def errDAGFrozen : GoErr := .base ("DAG is frozen")

/-- `ErrDAGNotFrozen` of package dag. -/
def errDAGNotFrozen : GoErr := .base ("DAG is not frozen")

/-- `ErrDAGIncomplete` of package dag. -/
def errDAGIncomplete : GoErr := .base ("DAG is incomplete")

/-- `ErrDAGCyclic` of package dag. -/
def errDAGCyclic : GoErr := .base ("DAG has cycle")

/-- `ErrTimeout` of package future. -/
def errTimeout : GoErr := .base ("future timeout")

/-- Go `any` values as used by the DAG engine: primitives, result maps and a
marker wrapper (the observation vehicle for interceptor application). -/
inductive Val where
  | vNil
  | vInt (n : Int)
  | vStr (s : String)
  | vMark (v : Val)
  | vMap (m : List (String × Val))
deriving Repr

/- ------------------------------------------------------------------
C1: sequential runs of `state.set` (src/future/state.go lines 41-73).
A full, uninterrupted execution of `set` either observes `!isFree(st)`
and returns false leaving the cell untouched, or walks
free -> doing -> done, storing the pair.  A cell is modelled by
`Option (pair)`: `none` = free, `some p` = done holding `p`.
------------------------------------------------------------------ -/

/-- One uninterrupted `state.set(val, err)` call: returns the Bool result and
the new cell contents. -/
def cellSeqSet {α : Type} (c : Option (α × Option GoErr)) (p : α × Option GoErr) :
    Bool × Option (α × Option GoErr) :=
  match c with
  | none => (true, some p)
  | some q => (false, some q)

/-- `Promise.SetSafety` (src/unnamed/part_000 lines 36-38): just `state.set`. -/
def promiseSetSafety {α : Type} (c : Option (α × Option GoErr)) (p : α × Option GoErr) :
    Bool × Option (α × Option GoErr) :=
  cellSeqSet c p

/-- `Promise.Set` (src/unnamed/part_000 lines 29-33): panics ("promise already
satisfied") when `state.set` returns false.  The panic is modelled by
`Except.error`. -/
def promiseSet {α : Type} (c : Option (α × Option GoErr)) (p : α × Option GoErr) :
    Except String (Option (α × Option GoErr)) :=
  match cellSeqSet c p with
  | (true, c') => .ok c'
  | (false, _) => .error ("promise already satisfied")

/-- Run a sequence of `set` calls on a cell, collecting each call's Bool
result and the final contents. -/
def runSets {α : Type} (c : Option (α × Option GoErr)) :
    List (α × Option GoErr) → List Bool × Option (α × Option GoErr)
  | [] => ([], c)
  | p :: ps =>
    let r := cellSeqSet c p
    let rest := runSets r.2 ps
    (r.1 :: rest.1, rest.2)

/- ------------------------------------------------------------------
C6: `AllOf` (src/future/api.go lines 75-100).  The subscription callbacks
run once per source, in the order the sources settle; that order is the
`order` parameter.  The state mirrors the closure state of `AllOf`:
the `done` flag, the countdown `c`, the results buffer and the private
promise's cell.
------------------------------------------------------------------ -/

/-- The one-shot cell underlying a derived promise: the first `set` wins. -/
def cellSet {β : Type} (c : Option β) (x : β) : Option β :=
  match c with
  | none => some x
  | some y => some y

/-- Closure state of `AllOf` over `n` sources with values in `α`. -/
@[ext]
structure AllSt (n : Nat) (α : Type) where
  done : Bool
  c : Int
  results : Fin n → α
  cell : Option (List α × Option GoErr)

/-- Initial `AllOf` state: `done = 0`, `c = len(fs)`, results buffer filled
with the zero value `z`, promise unset. -/
def allOfInit (n : Nat) {α : Type} (z : α) : AllSt n α :=
  ⟨false, (n : Int), fun _ => z, none⟩

/-- The subscription callback of source `i` (its settled pair is `outs i`):
on error, CAS the done flag and set the promise to the error; on value,
store at index `i`, decrement the countdown and set the promise to the
buffer when the countdown reaches zero. -/
def allOfStep {n : Nat} {α : Type} (outs : Fin n → α × Option GoErr)
    (st : AllSt n α) (i : Fin n) : AllSt n α :=
  match (outs i).2 with
  | some e =>
    if st.done then st
    else { st with done := true, cell := cellSet st.cell ([], some e) }
  | none =>
    let res' := Function.update st.results i (outs i).1
    if st.c - 1 = 0 then
      { st with
          results := res'
          c := st.c - 1
          cell := cellSet st.cell ((List.finRange n).map res', none) }
    else
      { st with results := res', c := st.c - 1 }

/-- `AllOf`: empty source list yields `Done[[]T](nil)` (settled, empty slice,
nil error); otherwise the cell after all arrivals in `order` are processed. -/
def allOfRun (n : Nat) {α : Type} (z : α) (outs : Fin n → α × Option GoErr)
    (order : List (Fin n)) : Option (List α × Option GoErr) :=
  if n = 0 then some ([], none)
  else (order.foldl (allOfStep outs) (allOfInit n z)).cell

/- ------------------------------------------------------------------
C7: `Timeout` (src/unnamed/part_002 lines 143-159).  Two events can reach
the closure: the timer fires, or the source settles.  A single `done`
flag resolves the race; the source branch stops the timer.
------------------------------------------------------------------ -/

/-- Events observed by the `Timeout` closures. -/
inductive TEv where
  | fire
  | source
deriving DecidableEq, Repr

/-- Closure state of `Timeout`. -/
structure TSt (α : Type) where
  done : Bool
  stopped : Bool
  cell : Option (α × Option GoErr)

/-- One event: the timer callback (guarded by the stopped timer and the done
flag) or the source subscription callback (guarded by the done flag; stops
the timer). `z` is the zero value of `T`, `(v, e)` the source's pair. -/
def timeoutStep {α : Type} (z : α) (v : α) (e : Option GoErr)
    (st : TSt α) : TEv → TSt α
  | .fire =>
    if st.stopped then st
    else if st.done then st
    else { st with done := true, cell := cellSet st.cell (z, some errTimeout) }
  | .source =>
    if st.done then st
    else { done := true, stopped := true, cell := cellSet st.cell (v, e) }

/-- Run `Timeout`'s derived cell through a sequence of events. -/
def timeoutRun {α : Type} (z : α) (v : α) (e : Option GoErr)
    (evs : List TEv) : TSt α :=
  evs.foldl (timeoutStep z v e) ⟨false, false, none⟩

example : (timeoutRun (0 : Nat) 7 none [TEv.fire, TEv.source]).cell
    = some (0, some errTimeout) := by decide

example : (timeoutRun (0 : Nat) 7 none [TEv.source, TEv.fire]).cell
    = some (7, none) := by decide

example : allOfRun 2 (0 : Nat) (fun i => (if i = 0 then 3 else 4, none)) [1, 0]
    = some ([3, 4], none) := rfl

example : allOfRun 2 (0 : Nat)
    (fun i => if i = 0 then (3, none) else (0, some errTimeout)) [1, 0]
    = some ([], some errTimeout) := rfl

example : runSets (none : Option (Nat × Option GoErr)) [(1, none), (2, none), (3, none)]
    = ([true, false, false], some (1, none)) := by decide

/- ------------------------------------------------------------------
C2: fine-grained interleaving semantics of `state.set` and
`state.subscribe` (src/future/state.go lines 41-112) with one setter and
K subscribers.

Atomicity choices, justified against the source:
* The status word moves free -> doing -> done; only the setter writes it.
* The setter's drain loop (lines 59-69) is modelled as one atomic
  "pop head and run its latch" step per callback: the CAS-pop and the
  subsequent `execOnce` are merged, which is sound for the fired-calls
  observable because `execOnce` is idempotent (`sync.Once`) and only the
  setter pops.
* A subscriber's steps are kept separate exactly where the source has
  separate shared accesses: read the head (line 95), check `isDone`
  (line 97), CAS-push (line 103), re-check `isDone` and run the latch
  (lines 105-107).  The pointer CAS is modelled as comparison of the
  whole stack (sound: a record's `next` is frozen while it is on the
  stack and records are never re-pushed, so equal heads imply equal
  chains).
* `runtime_Semrelease`/`get` waiters are not modelled; they do not touch
  the callback stack.
------------------------------------------------------------------ -/

/-- The two state bits of the status word. -/
inductive CStatus where
  | free
  | doing
  | done
deriving DecidableEq, Repr

/-- The setter's program counter: before the winning CAS, after it (value
write pending), after the value write (done-transition pending), in the
drain loop, finished. -/
inductive SetPC where
  | t0
  | t1
  | t2
  | tdrain
  | tEnd
deriving DecidableEq, Repr

/-- A subscriber's program counter. `u1`/`u2` carry the head snapshot read
at `u0` (the `oldCb` local). -/
inductive SubPC (K : Nat) where
  | u0
  | u1 (reg : List (Fin K))
  | u2 (reg : List (Fin K))
  | u3
  | uEnd
deriving DecidableEq, Repr

/-- Global state of the cell with one setter and `K` subscribers.
`latch i` is subscriber `i`'s `sync.Once` flag; `inl i` records a direct
inline invocation at the `isDone` fast path of `subscribe` (line 98, which
bypasses the latch); `calls i` is the list of `(val, err)` arguments
subscriber `i`'s callback has received so far. -/
structure Cell2 (K : Nat) (α : Type) where
  status : CStatus
  stored : Option (α × Option GoErr)
  stack : List (Fin K)
  latch : Fin K → Bool
  inl : Fin K → Bool
  calls : Fin K → List (α × Option GoErr)
  spc : SetPC
  pcs : Fin K → SubPC K

/-- Initial state: fresh cell, all threads at their first instruction. -/
def c2init (K : Nat) (α : Type) : Cell2 K α :=
  ⟨.free, none, [], fun _ => false, fun _ => false, fun _ => [], .t0, fun _ => .u0⟩

/-- `callback.execOnce` (lines 121-125) for subscriber `i`: fire the callback
with the stored pair unless the latch is already set. -/
def execOnce {K : Nat} {α : Type} (z : α) (s : Cell2 K α) (i : Fin K) : Cell2 K α :=
  if s.latch i then s
  else
    { s with
        latch := Function.update s.latch i true
        calls := Function.update s.calls i (s.calls i ++ [s.stored.getD (z, none)]) }

/-- A scheduling choice: run the setter or run subscriber `i`. -/
inductive Ch (K : Nat) where
  | setter
  | sub (i : Fin K)
deriving DecidableEq, Repr

/-- One step of the setter `state.set(v, e)`:
`t0` the CAS free -> doing (a second setter would observe `!isFree` and
return false; with a single setter the CAS always wins);
`t1` store the pair; `t2` move doing -> done; `tdrain` pop one callback and
run its latch, or exit when the stack is empty. -/
def setterStep {K : Nat} {α : Type} (z : α) (v : α) (e : Option GoErr)
    (s : Cell2 K α) : Cell2 K α :=
  match s.spc with
  | .t0 =>
    if s.status = .free then { s with status := .doing, spc := .t1 }
    else { s with spc := .tEnd }
  | .t1 => { s with stored := some (v, e), spc := .t2 }
  | .t2 => { s with status := .done, spc := .tdrain }
  | .tdrain =>
    match s.stack with
    | [] => { s with spc := .tEnd }
    | h :: tl => execOnce z { s with stack := tl } h
  | .tEnd => s

/-- One step of subscriber `i` (`state.subscribe`, lines 92-112):
`u0` read the head into `oldCb`; `u1` the `isDone` fast path (invoke the
callback directly, without the latch) or fall through; `u2` the CAS-push
(on failure restart at `u0`); `u3` the post-push `isDone` re-check running
the latch. -/
def subStep {K : Nat} {α : Type} (z : α) (s : Cell2 K α) (i : Fin K) : Cell2 K α :=
  match s.pcs i with
  | .u0 => { s with pcs := Function.update s.pcs i (.u1 s.stack) }
  | .u1 reg =>
    if s.status = .done then
      { s with
          inl := Function.update s.inl i true
          calls := Function.update s.calls i (s.calls i ++ [s.stored.getD (z, none)])
          pcs := Function.update s.pcs i .uEnd }
    else { s with pcs := Function.update s.pcs i (.u2 reg) }
  | .u2 reg =>
    if s.stack = reg then
      { s with stack := i :: reg, pcs := Function.update s.pcs i .u3 }
    else { s with pcs := Function.update s.pcs i .u0 }
  | .u3 =>
    let s' := if s.status = .done then execOnce z s i else s
    { s' with pcs := Function.update s'.pcs i .uEnd }
  | .uEnd => s

/-- One interleaving step. -/
def c2step {K : Nat} {α : Type} (z : α) (v : α) (e : Option GoErr)
    (s : Cell2 K α) : Ch K → Cell2 K α
  | .setter => setterStep z v e s
  | .sub i => subStep z s i

/-- Run a schedule from the initial state. -/
def c2run (K : Nat) {α : Type} (z : α) (v : α) (e : Option GoErr)
    (cs : List (Ch K)) : Cell2 K α :=
  cs.foldl (c2step z v e) (c2init K α)

/-- All threads have terminated. -/
def c2complete {K : Nat} {α : Type} (s : Cell2 K α) : Prop :=
  s.spc = .tEnd ∧ ∀ i, s.pcs i = .uEnd

instance {K : Nat} {α : Type} (s : Cell2 K α) : Decidable (c2complete s) := by
  unfold c2complete
  infer_instance

/- ------------------------------------------------------------------
C3 / C8: the DAG instance runtime (src/dag/dag.go, second listing,
lines 822-875).  A `NodeInstance` is a dependency list plus a bound run
function; outcomes are computed along a topological order, which models
the pending-counter scheduler (a node's run starts only after all its
dependencies' futures have settled).
------------------------------------------------------------------ -/

/-- Lookup in an association list (Go map read). -/
def assoc {β : Type} : List (String × β) → String → Option β
  | [], _ => none
  | (k, b) :: rest, id => if k = id then some b else assoc rest id

/-- A node instance: dependency ids and the bound run function
(`NodeInstance.spec.Deps()` and `NodeInstance.run`). -/
structure RNode where
  deps : List String
  run : List (String × Val) → Except GoErr Val

/-- A DAG instance: the node map (as an association list; the list order
stands for the map iteration order of `RunAsync`). -/
structure RGraph where
  nodes : List (String × RNode)

/-- The dependency-read loop of `DAGInstance.runNode` (lines 853-863): read
each dependency's settled outcome in order; a `Skipped` dependency yields
the bare `ErrNodeSkipped`; any other error yields `dep <id> failed: <err>`;
otherwise collect the dependency map.  `out d = none` (an unsettled
dependency) cannot occur under the scheduler and is mapped to an artifact
error. -/
def readDeps (out : String → Option (Except GoErr Val)) :
    List String → Except GoErr (List (String × Val))
  | [] => .ok []
  | d :: ds =>
    match out d with
    | none => .error (.base ("model artifact: unsettled dependency"))
    | some (.error e) =>
      if e.is errNodeSkipped then .error errNodeSkipped
      else .error (.wrap ("dep " ++ d ++ " failed") e)
    | some (.ok v) =>
      match readDeps out ds with
      | .error e => .error e
      | .ok m => .ok ((d, v) :: m)

/-- Outcome of one node given the outcomes settled so far: the dependency
read followed by the bound run function (lines 853-864). -/
def computeOut (acc : List (String × Except GoErr Val)) (n : RNode) :
    Except GoErr Val :=
  match readDeps (assoc acc) n.deps with
  | .error e => .error e
  | .ok m => n.run m

/-- Process one scheduled node id: settle its outcome from the outcomes
settled so far.  Ids outside the graph are ignored (excluded by
`isTopo`). -/
def outsStep (g : RGraph) (acc : List (String × Except GoErr Val)) (id : String) :
    List (String × Except GoErr Val) :=
  match assoc g.nodes id with
  | none => acc
  | some n => acc ++ [(id, computeOut acc n)]

/-- Settle all nodes along the schedule `order`. -/
def outsList (g : RGraph) (order : List String) : List (String × Except GoErr Val) :=
  order.foldl (outsStep g) []

/-- The settled outcome of node `id`. -/
def outAt (g : RGraph) (order : List String) (id : String) :
    Option (Except GoErr Val) :=
  assoc (outsList g order) id

/-- The collection pass of `DAGInstance.RunAsync` (lines 830-845): walk the
node outcomes; skip `Skipped` nodes; abort with `node <id> failed: <err>`
on the first other error; otherwise collect the result map. -/
def aggregate : List (String × Except GoErr Val) → Except GoErr (List (String × Val))
  | [] => .ok []
  | (id, .error e) :: rest =>
    if e.is errNodeSkipped then aggregate rest
    else .error (.wrap ("node " ++ id ++ " failed") e)
  | (id, .ok v) :: rest =>
    match aggregate rest with
    | .error e => .error e
    | .ok m => .ok ((id, v) :: m)

/-- `order` is a topological schedule of `g`: it covers exactly the node ids
of `g`, without repetition, and every dependency of a node is scheduled
strictly before the node.  This is what the pending-counter dispatch of
`runNode` (lines 866-870) guarantees for the order in which node futures
settle. -/
def isTopo (g : RGraph) (order : List String) : Bool :=
  order.Nodup &&
  g.nodes.all (fun p => p.1 ∈ order) &&
  order.all (fun id =>
    match assoc g.nodes id with
    | none => false
    | some n => n.deps.all (fun d => order.indexOf d < order.indexOf id))

/-- `reachB fuel g y x`: `x` is reachable from `y` by following at least one
dependency edge, within `fuel` steps. -/
def reachB (g : RGraph) : Nat → String → String → Bool
  | 0, _, _ => false
  | fuel + 1, y, x =>
    match assoc g.nodes y with
    | none => false
    | some n => n.deps.any (fun d => d = x || reachB g fuel d x)

/-- `y` is a descendant of `x` in `g`: `y` transitively depends on `x`.
The fuel `g.nodes.length` covers every simple dependency path. -/
def descB (g : RGraph) (x y : String) : Bool :=
  reachB g g.nodes.length y x

/- ------------------------------------------------------------------
C4 / C5 / C10: the DAG definition layer (src/dag/dag.go, second listing,
lines 491-617), and C9: `Instantiate` + `Run` (lines 696-790).
Go maps are association lists here; the list order stands for the
(unspecified) map iteration order.
------------------------------------------------------------------ -/

mutual
/-- A node spec: the entry node, a simple node (`deps`, `run`), or a
sub-graph node (`deps`, inner DAG, optional input/output mappings). -/
inductive GNode where
  | entry : GNode
  | simple : List String → (List (String × Val) → Except GoErr Val) → GNode
  | subdag : List String → GDag →
      Option (List (String × Val) → Val) → Option (List (String × Val) → Val) → GNode

/-- A DAG definition: entry id, node registry, frozen flag. -/
inductive GDag where
  | mk : String → List (String × GNode) → Bool → GDag
end

/-- `Node.Deps()`. -/
def GNode.deps : GNode → List String
  | .entry => []
  | .simple ds _ => ds
  | .subdag ds _ _ _ => ds

/-- The entry id of a DAG. -/
def GDag.entry : GDag → String
  | .mk e _ _ => e

/-- The node registry of a DAG. -/
def GDag.nodes : GDag → List (String × GNode)
  | .mk _ ns _ => ns

/-- The frozen flag of a DAG. -/
def GDag.frozen : GDag → Bool
  | .mk _ _ fz => fz

/-- `NewDAG(entry)` (lines 492-503): registers the entry node. -/
def newDAG (e : String) : GDag := .mk e [(e, .entry)] false

/-- `DAG.AddNode` (lines 506-521). -/
def addNode (d : GDag) (id : String) (deps : List String)
    (fn : List (String × Val) → Except GoErr Val) : Except GoErr GDag :=
  if d.frozen then .error errDAGFrozen
  else if (assoc d.nodes id).isSome then .error errDAGNodeExists
  else .ok (.mk d.entry (d.nodes ++ [(id, .simple deps fn)]) false)

/-- `DAG.AddSubGraph` (lines 524-545). -/
def addSubGraph (d : GDag) (id : String) (deps : List String) (sub : GDag)
    (im om : Option (List (String × Val) → Val)) : Except GoErr GDag :=
  if d.frozen then .error errDAGFrozen
  else if (assoc d.nodes id).isSome then .error errDAGNodeExists
  else .ok (.mk d.entry (d.nodes ++ [(id, .subdag deps sub im om)]) false)

/-- `DAG.checkComplete` (lines 571-580): the first node with a dependency
missing from the registry yields the wrapped `ErrDAGIncomplete`. -/
def checkComplete (all : List (String × GNode)) :
    List (String × GNode) → Option GoErr
  | [] => none
  | (id, n) :: rest =>
    match n.deps.find? (fun dep => (assoc all dep).isNone) with
    | some dep =>
      some (.wrap ("dependency " ++ dep ++ " of node " ++ id ++ " is not present")
        errDAGIncomplete)
    | none => checkComplete all rest

/-- The reverse-edge map of `checkCycle` (lines 594-599): the nodes that
declare `u` as a dependency, once per declaration. -/
def childrenOf (nodes : List (String × GNode)) (u : String) : List String :=
  nodes.foldr (fun p acc => ((p.2.deps.filter (fun d => d = u)).map (fun _ => p.1)) ++ acc) []

/-- Decrement the in-degree of `v`. -/
def degDec (deg : List (String × Int)) (v : String) : List (String × Int) :=
  deg.map (fun p => if p.1 = v then (p.1, p.2 - 1) else p)

/-- The Kahn loop of `checkCycle` (lines 601-611): pop, count the visit,
decrement the children, enqueue children reaching in-degree zero.  Each
node is enqueued at most once (an in-degree hits zero at most once), so
`fuel = nodes.length` never cuts the loop short. -/
def kahnLoop (children : String → List String) :
    Nat → List String → List (String × Int) → Nat → Nat
  | 0, _, _, visited => visited
  | _ + 1, [], _, visited => visited
  | fuel + 1, u :: q, deg, visited =>
    let st := (children u).foldl
      (fun (acc : List (String × Int) × List String) v =>
        let deg' := degDec acc.1 v
        if assoc deg' v = some 0 then (deg', acc.2 ++ [v]) else (deg', acc.2))
      (deg, [])
    kahnLoop children fuel (q ++ st.2) st.1 (visited + 1)

/-- The visit count of `checkCycle`'s Kahn traversal (lines 582-611). -/
def kahnVisited (nodes : List (String × GNode)) : Nat :=
  let deg := nodes.map (fun p => (p.1, (p.2.deps.length : Int)))
  let queue := (nodes.filter (fun p => p.2.deps.length = 0)).map (fun p => p.1)
  kahnLoop (childrenOf nodes) nodes.length queue deg 0

/-- `DAG.checkCycle` (lines 582-617): `ErrDAGCyclic` when the traversal
visits fewer nodes than the registry holds. -/
def checkCycle (nodes : List (String × GNode)) : Option GoErr :=
  if kahnVisited nodes ≠ nodes.length then some errDAGCyclic else none

mutual
/-- `DAG.Freeze` (lines 550-569): reject a frozen DAG, check completeness,
check acyclicity, freeze every sub-graph, then mark frozen.  The result
carries the updated definition (Go mutates in place; the partially mutated
state left behind by a failing freeze is not modelled). -/
def GDag.freeze : GDag → Except GoErr GDag
  | .mk e ns fz =>
    if fz then .error errDAGFrozen
    else
      match checkComplete ns ns with
      | some err => .error err
      | none =>
        match checkCycle ns with
        | some err => .error err
        | none =>
          match freezeSubs ns with
          | .error err => .error err
          | .ok ns' => .ok (.mk e ns' true)

/-- The sub-graph loop of `DAG.Freeze` (lines 560-566): freeze each
sub-graph node's inner DAG, wrapping a failure as
`freeze node <id> failed: <err>`. -/
def freezeSubs : List (String × GNode) → Except GoErr (List (String × GNode))
  | [] => .ok []
  | (id, .subdag ds sub im om) :: rest =>
    match sub.freeze with
    | .error err => .error (.wrap ("freeze node " ++ id ++ " failed") err)
    | .ok sub' =>
      match freezeSubs rest with
      | .error err => .error err
      | .ok rest' => .ok ((id, .subdag ds sub' im om) :: rest')
  | other :: rest =>
    match freezeSubs rest with
    | .error err => .error err
    | .ok rest' => .ok (other :: rest')
end

mutual
/-- Every reachable DAG (this one and all nested sub-graphs) is frozen. -/
def GDag.allFrozen : GDag → Bool
  | .mk _ ns fz => fz && allFrozenSubs ns

/-- All sub-graphs among these nodes are recursively frozen. -/
def allFrozenSubs : List (String × GNode) → Bool
  | [] => true
  | (_, .subdag _ sub _ _) :: rest => sub.allFrozen && allFrozenSubs rest
  | _ :: rest => allFrozenSubs rest
end

/-- The option set of `Instantiate` (lines 664-694): interceptors and preset
node results.  The executor only affects scheduling, which the topological
order already abstracts. -/
structure IOpts where
  interceptors :
    List ((List (String × Val) → Except GoErr Val) → List (String × Val) → Except GoErr Val)
  nodeResults : List (String × Val)

/-- The interceptor fold of `Instantiate` (lines 731-733): applied in
reverse order, so the first-added interceptor is outermost. -/
def applyItcs
    (itcs : List ((List (String × Val) → Except GoErr Val) → List (String × Val) → Except GoErr Val))
    (base : List (String × Val) → Except GoErr Val) :
    List (String × Val) → Except GoErr Val :=
  itcs.foldr (fun itc acc => itc acc) base

/-- The precomputed-results map of `Instantiate` (lines 710-714):
`results[d.entry] = input` overlaid with the `WithNodeResults` presets
(the presets win, also on the entry id). -/
def presetOf (ent : String) (input : Val) (opts : IOpts) (id : String) : Option Val :=
  match assoc opts.nodeResults id with
  | some r => some r
  | none => if id = ent then some input else none

/-- `DAG.createNodeRunFunc` (lines 753-790), parameterized by the evaluator
used for inner DAGs (the recursive knot is tied by `evalDag`): a node with a
precomputed result returns it; the entry arm returns `results[id]`
(reachable only when the id has no preset, where the Go map read yields
nil); a simple node runs its user function; a sub-graph node instantiates
the inner DAG with the *same* options `opts`, runs it, and applies the
mappings. -/
def baseRunOf (evalSub : GDag → Val → IOpts → List (String × Except GoErr Val))
    (ent : String) (input : Val) (opts : IOpts) (id : String) (spec : GNode) :
    List (String × Val) → Except GoErr Val :=
  match presetOf ent input opts id with
  | some r => fun _ => .ok r
  | none =>
    match spec with
    | .entry => fun _ => .ok Val.vNil
    | .simple _ run => run
    | .subdag _ sub im om => fun depm =>
      let inp := match im with | some f => f depm | none => .vMap depm
      if sub.frozen = false then
        .error (.wrap ("instantiate sub DAG failed") errDAGNotFrozen)
      else
        match aggregate (evalSub sub inp opts) with
        | .error err => .error (.wrap ("run sub DAG failed") err)
        | .ok m => .ok (match om with | some f => f m | none => .vMap m)

/-- The node-instance construction loop of `Instantiate` (lines 716-740):
bind each spec's run function and wrap it with the interceptors. -/
def buildNodes (evalSub : GDag → Val → IOpts → List (String × Except GoErr Val))
    (ent : String) (input : Val) (opts : IOpts) :
    List (String × GNode) → List (String × RNode)
  | [] => []
  | (id, spec) :: rest =>
    (id, ⟨spec.deps, applyItcs opts.interceptors (baseRunOf evalSub ent input opts id spec)⟩)
      :: buildNodes evalSub ent input opts rest

/-- `Instantiate` + `Run` for one DAG level: settle all node outcomes along
the schedule `σ d`; nested sub-graphs are evaluated by the recursive call
with the same option set.  `fuel` bounds the nesting depth (any fuel above
the static sub-graph depth is exact; fuel 0 yields no outcomes). -/
def evalDag (σ : GDag → List String) :
    Nat → GDag → Val → IOpts → List (String × Except GoErr Val)
  | 0, _, _, _ => []
  | fuel + 1, d, input, opts =>
    outsList ⟨buildNodes (evalDag σ fuel) d.entry input opts d.nodes⟩ (σ d)

/-- A value-marking interceptor: wraps the bound run function and marks each
successful value.  The observation vehicle for interceptor propagation. -/
def markItc (next : List (String × Val) → Except GoErr Val)
    (depm : List (String × Val)) : Except GoErr Val :=
  (next depm).map Val.vMark

/-- The status word value determined by the setter's program counter (only
the setter writes the status). -/
def statusOf : SetPC → CStatus
  | .t0 => .free
  | .t1 => .doing
  | .t2 => .doing
  | .tdrain => .done
  | .tEnd => .done

/-- The inductive invariant of the one-setter / K-subscriber cell model:
the status word tracks the setter's progress; the stored pair is written
exactly between `t1` and `t2`; a subscriber before its push holds no latch,
is not on the stack, fired nothing; an inline fire happens only at the end,
off-stack, with the settled pair recorded once; a latch fire records the
settled pair once; after the drain exits every stacked record is latched or
its subscriber still has the re-check (`u3`) to run; a subscriber that
finished without firing left its record on the stack; a subscriber at the
re-check has its record stacked unless already drained. -/
def c2inv {K : Nat} {α : Type} (v : α) (e : Option GoErr) (s : Cell2 K α) : Prop :=
  s.status = statusOf s.spc
  ∧ ((s.spc = .t0 ∨ s.spc = .t1) → s.stored = none)
  ∧ ((s.spc = .t2 ∨ s.spc = .tdrain ∨ s.spc = .tEnd) → s.stored = some (v, e))
  ∧ (∀ i : Fin K,
      ((s.pcs i = .u0 ∨ (∃ r, s.pcs i = .u1 r) ∨ (∃ r, s.pcs i = .u2 r)) →
        s.latch i = false ∧ i ∉ s.stack ∧ s.inl i = false ∧ s.calls i = [])
      ∧ (s.inl i = true → s.pcs i = .uEnd ∧ s.latch i = false ∧ i ∉ s.stack
          ∧ s.calls i = [(v, e)])
      ∧ (s.latch i = true → s.calls i = [(v, e)] ∧ s.inl i = false)
      ∧ (s.latch i = false → s.inl i = false → s.calls i = [])
      ∧ (s.pcs i = .uEnd → s.inl i = false → s.latch i = false → i ∈ s.stack)
      ∧ (s.pcs i = .u3 → i ∈ s.stack ∨ s.latch i = true))
  ∧ (s.spc = .tEnd → ∀ j ∈ s.stack, s.latch j = true ∨ s.pcs j = .u3)

/-- Concrete instance graph: entry `E`; `F` fails with a plain error; `X`
skips; `Y` depends on both `F` and `X`. -/
def c3cg : RGraph :=
  ⟨[(("E"), ⟨[], fun _ => .ok (.vInt 0)⟩),
    (("F"), ⟨[("E")], fun _ => .error (.base ("boom"))⟩),
    (("X"), ⟨[("E")], fun _ => .error errNodeSkipped⟩),
    (("Y"), ⟨[("F"), ("X")], fun _ => .ok (.vInt 7)⟩)]⟩

/-- A topological schedule for `c3cg`. -/
def c3order : List String := [("E"), ("F"), ("X"), ("Y")]

/-- Concrete instance graph: entry `E`; `X` skips; `Y` depends on `X`. -/
def c3wg : RGraph :=
  ⟨[(("E"), ⟨[], fun _ => .ok (.vInt 0)⟩),
    (("X"), ⟨[("E")], fun _ => .error errNodeSkipped⟩),
    (("Y"), ⟨[("X")], fun _ => .ok (.vInt 7)⟩)]⟩

/-- A topological schedule for `c3wg`. -/
def c3worder : List String := [("E"), ("X"), ("Y")]

/-- Proof vehicle for C6: the `AllOf` closure state after the sources in `P`
(all carrying values) have arrived. -/
def c6state (n : Nat) {α : Type} (z : α) (outs : Fin n → α × Option GoErr)
    (P : List (Fin n)) : AllSt n α :=
  ⟨false, (n : Int) - P.length,
    fun i => if i ∈ P then (outs i).1 else z,
    if P.length = n then
      some ((List.finRange n).map (fun i => (outs i).1), none)
    else none⟩

/- ==================================================================
Theorems.
================================================================== -/

theorem GoErr.is_refl (e : GoErr) : e.is e = true := by
  cases e <;> simp [GoErr.is]

theorem GoErr.is_wrap_inner (m : String) (e t : GoErr) (h : e.is t = true) :
    (GoErr.wrap m e).is t = true := by
  simp [GoErr.is, h]

theorem runSets_already_set {α : Type} (q : α × Option GoErr) :
    ∀ ps : List (α × Option GoErr),
      runSets (some q) ps = (ps.map (fun _ => false), some q)
  | [] => rfl
  | _ :: ps => by
    simp [runSets, cellSeqSet, runSets_already_set q ps]

/-- C1: for a fresh state cell, among any sequence of `set` calls only the
first succeeds: it stores its (value, error) pair as the cell's final,
immutable contents and returns true, every later call returns false and
leaves the pair unchanged; accordingly `Promise.SetSafety` reports the
conflict with false and strict `Promise.Set` panics on it. -/
theorem c1_single_assignment {α : Type} (p q p' : α × Option GoErr)
    (ps : List (α × Option GoErr)) :
    runSets none (p :: ps) = (true :: ps.map (fun _ => false), some p)
    ∧ promiseSetSafety (some q) p' = (false, some q)
    ∧ promiseSet (some q) p' = .error ("promise already satisfied")
    ∧ promiseSet (none : Option (α × Option GoErr)) p = .ok (some p) := by
  refine ⟨?_, rfl, rfl, rfl⟩
  simp [runSets, cellSeqSet, runSets_already_set]

theorem timeoutRun_done_stable {α : Type} (z v : α) (e : Option GoErr) :
    ∀ (evs : List TEv) (st : TSt α), st.done = true →
      evs.foldl (timeoutStep z v e) st = st
  | [], _, _ => rfl
  | ev :: evs, st, h => by
    have hstep : timeoutStep z v e st ev = st := by
      cases ev <;> simp [timeoutStep, h]
    rw [List.foldl_cons, hstep]
    exact timeoutRun_done_stable z v e evs st h

/-- C7: `Timeout(source, d)` settles with the distinguished `ErrTimeout`
error (and the zero value) when the timer fires before the source settles;
when the source settles first it forwards the source's (value, error) pair
and stops the timer.  The done flag makes the first event the only one
ever published to the derived future, whatever happens afterwards. -/
theorem c7_timeout {α : Type} (z v : α) (e : Option GoErr) (evs : List TEv) :
    (evs.head? = some TEv.fire →
      (timeoutRun z v e evs).cell = some (z, some errTimeout))
    ∧ (evs.head? = some TEv.source →
      (timeoutRun z v e evs).cell = some (v, e)
        ∧ (timeoutRun z v e evs).stopped = true) := by
  constructor
  · intro h
    match evs, h with
    | .fire :: rest, _ =>
      show (List.foldl _ (timeoutStep z v e ⟨false, false, none⟩ .fire) rest).cell = _
      rw [show timeoutStep z v e ⟨false, false, none⟩ .fire
          = ⟨true, false, some (z, some errTimeout)⟩ from rfl]
      rw [timeoutRun_done_stable z v e rest _ rfl]
  · intro h
    match evs, h with
    | .source :: rest, _ =>
      show (List.foldl _ (timeoutStep z v e ⟨false, false, none⟩ .source) rest).cell = _
        ∧ (List.foldl _ (timeoutStep z v e ⟨false, false, none⟩ .source) rest).stopped = _
      rw [show timeoutStep z v e ⟨false, false, none⟩ .source
          = ⟨true, true, some (v, e)⟩ from rfl]
      rw [timeoutRun_done_stable z v e rest _ rfl]
      exact ⟨rfl, rfl⟩

/-- Witness for C7 at concrete inputs: both orders of the two events. -/
theorem c7_timeout_witness :
    (timeoutRun (0 : Nat) 7 none [TEv.fire, TEv.source]).cell
        = some (0, some errTimeout)
    ∧ (timeoutRun (0 : Nat) 7 none [TEv.source, TEv.fire]).cell = some (7, none) :=
  ⟨(c7_timeout 0 7 none [TEv.fire, TEv.source]).1 rfl,
    ((c7_timeout 0 7 none [TEv.source, TEv.fire]).2 rfl).1⟩

theorem c6_cell_stable {n : Nat} {α : Type} (outs : Fin n → α × Option GoErr) :
    ∀ (l : List (Fin n)) (st : AllSt n α) (x : List α × Option GoErr),
      st.cell = some x → (l.foldl (allOfStep outs) st).cell = some x
  | [], _, _, h => h
  | i :: l, st, x, h => by
    rw [List.foldl_cons]
    refine c6_cell_stable outs l _ x ?_
    unfold allOfStep
    match houts : (outs i).2 with
    | some e =>
      by_cases hd : st.done <;> simp [hd, h, cellSet]
    | none =>
      by_cases hc : st.c - 1 = 0 <;> simp [hc, h, cellSet]


theorem c6_fold_values {n : Nat} {α : Type} (z : α) (outs : Fin n → α × Option GoErr) :
    ∀ (l P : List (Fin n)), (∀ i ∈ l, (outs i).2 = none) → (P ++ l).Nodup →
      l.foldl (allOfStep outs) (c6state n z outs P) = c6state n z outs (P ++ l)
  | [], P, _, _ => by simp
  | i :: l, P, hval, hnd => by
    have hnd1 : ((P ++ [i]) ++ l).Nodup := by
      have : (P ++ [i]) ++ l = P ++ i :: l := by simp
      rw [this]
      exact hnd
    have hnd' : (P ++ [i]).Nodup := hnd1.of_append_left
    have hlen : (P ++ [i]).length ≤ n := by simpa using hnd'.length_le_card
    have hlenP : P.length + 1 ≤ n := by simpa using hlen
    have hres : Function.update (fun j => if j ∈ P then (outs j).1 else z) i (outs i).1
        = fun j => if j ∈ P ++ [i] then (outs j).1 else z := by
      funext j
      by_cases hji : j = i
      · subst hji
        simp [Function.update]
      · simp [Function.update, hji, List.mem_append]
    have step : allOfStep outs (c6state n z outs P) i = c6state n z outs (P ++ [i]) := by
      unfold allOfStep c6state
      rw [hval i (List.mem_cons_self i l)]
      simp only []
      by_cases hc : ((n : Int) - P.length) - 1 = 0
      · have hPn : P.length + 1 = n := by omega
        have hfull : ∀ j : Fin n, j ∈ P ++ [i] := by
          intro j
          have hcard : (P ++ [i]).toFinset.card = (P ++ [i]).length :=
            List.toFinset_card_of_nodup hnd'
          have huniv : (P ++ [i]).toFinset = Finset.univ := by
            apply Finset.eq_univ_of_card
            rw [hcard]
            simp [hPn]
          have := Finset.eq_univ_iff_forall.mp huniv j
          simpa [List.mem_toFinset] using this
        rw [if_pos hc]
        ext1
        · rfl
        · show ((n : Int) - P.length) - 1 = (n : Int) - (P ++ [i]).length
          simp
          omega
        · exact hres
        · show cellSet (if P.length = n then _ else none) _
            = (if (P ++ [i]).length = n then _ else none)
          have h1 : P.length ≠ n := by omega
          have h2 : (P ++ [i]).length = n := by simp [hPn]
          rw [if_neg h1, if_pos h2]
          show some _ = some _
          congr 2
          rw [hres]
          apply List.map_congr_left
          intro j _
          simp [hfull j]
      · have hPn : P.length + 1 ≠ n := by omega
        rw [if_neg hc]
        ext1
        · rfl
        · show ((n : Int) - P.length) - 1 = (n : Int) - (P ++ [i]).length
          simp
          omega
        · exact hres
        · show (if P.length = n then _ else none)
            = (if (P ++ [i]).length = n then _ else none)
          have h1 : P.length ≠ n := by omega
          have h2 : (P ++ [i]).length ≠ n := by simp; omega
          rw [if_neg h1, if_neg h2]
    rw [List.foldl_cons, step]
    have := c6_fold_values z outs l (P ++ [i])
      (fun j hj => hval j (List.mem_cons_of_mem i hj)) hnd1
    rw [this]
    simp

theorem c6_init_eq {n : Nat} {α : Type} (z : α) (outs : Fin n → α × Option GoErr)
    (hn : n ≠ 0) : allOfInit n z = c6state n z outs [] := by
  unfold allOfInit c6state
  ext1
  · rfl
  · simp
  · simp
  · rw [if_neg (by simpa using Ne.symm hn)]

/-- C6: `AllOf` applied to an empty list returns an already-settled future
holding the empty sequence and nil error; applied to a non-empty list, if
some source settles with a non-nil error the aggregate settles with the
first such error and later-arriving values are discarded; and if all
sources settle with values the aggregate settles with the slice of the
values placed at each source's index. -/
theorem c6_allOf {n : Nat} {α : Type} (z : α) (outs : Fin n → α × Option GoErr) :
    (n = 0 → ∀ order, allOfRun n z outs order = some ([], none))
    ∧ (∀ order : List (Fin n), order.Nodup → (∀ i, i ∈ order) →
        (∀ i, (outs i).2 = none) →
        allOfRun n z outs order
          = some ((List.finRange n).map (fun i => (outs i).1), none))
    ∧ (∀ (pre post : List (Fin n)) (j : Fin n) (e : GoErr),
        (pre ++ j :: post).Nodup → (∀ i ∈ pre, (outs i).2 = none) →
        (outs j).2 = some e →
        allOfRun n z outs (pre ++ j :: post) = some ([], some e)) := by
  refine ⟨?_, ?_, ?_⟩
  · intro h0 order
    unfold allOfRun
    rw [if_pos h0]
  · intro order hnd hcov hval
    by_cases hn : n = 0
    · subst hn
      unfold allOfRun
      simp
    · unfold allOfRun
      rw [if_neg hn, c6_init_eq z outs hn,
        c6_fold_values z outs order [] (fun i _ => hval i) (by simpa using hnd)]
      have hlen : order.length = n := by
        have hcard : order.toFinset.card = order.length :=
          List.toFinset_card_of_nodup hnd
        have huniv : order.toFinset = Finset.univ :=
          Finset.eq_univ_iff_forall.mpr (fun i => List.mem_toFinset.mpr (hcov i))
        rw [huniv] at hcard
        simpa using hcard.symm
      have : (c6state n z outs ([] ++ order)).cell
          = if ([] ++ order).length = n then
              some ((List.finRange n).map (fun i => (outs i).1), none)
            else none := rfl
      rw [this, if_pos (by simpa using hlen)]
  · intro pre post j e hnd hpre hj
    have hn : n ≠ 0 := by
      intro h
      exact absurd j.2 (by omega)
    have hndpj : (pre ++ [j]).Nodup := by
      refine hnd.sublist ?_
      exact List.Sublist.append_left ((List.nil_sublist post).cons₂ j) pre
    have hlenpj : pre.length + 1 ≤ n := by simpa using hndpj.length_le_card
    unfold allOfRun
    rw [if_neg hn, List.foldl_append, c6_init_eq z outs hn,
      c6_fold_values z outs pre []
        (fun i hi => hpre i hi) (by simpa using hnd.of_append_left),
      List.foldl_cons]
    have hcell : (c6state n z outs ([] ++ pre)).cell = none := by
      have : (c6state n z outs ([] ++ pre)).cell
          = if ([] ++ pre).length = n then
              some ((List.finRange n).map (fun i => (outs i).1), none)
            else none := rfl
      rw [this, if_neg (by simp; omega)]
    have hdone : (c6state n z outs ([] ++ pre)).done = false := rfl
    have hstep : allOfStep outs (c6state n z outs ([] ++ pre)) j
        = { c6state n z outs ([] ++ pre) with
            done := true, cell := some ([], some e) } := by
      unfold allOfStep
      rw [hj]
      simp only [hdone, Bool.false_eq_true, if_false, hcell]
      rfl
    rw [hstep]
    exact c6_cell_stable outs post _ ([], some e) rfl

/-- Witness for C6 at concrete inputs: the empty source list, two sources
both valuing, and an error source arriving first. -/
theorem c6_allOf_witness :
    allOfRun 0 (0 : Nat) (fun i => (i.val, none)) [] = some ([], none)
    ∧ allOfRun 2 (0 : Nat) (fun i => (if i = 0 then 3 else 4, none)) [1, 0]
        = some ([3, 4], none)
    ∧ allOfRun 2 (0 : Nat)
        (fun i => if i = 0 then (3, none) else (0, some errTimeout)) [1, 0]
        = some ([], some errTimeout) := by
  refine ⟨?_, ?_, ?_⟩
  · exact (c6_allOf 0 (fun i => (i.val, none))).1 rfl []
  · exact (c6_allOf 0 (fun i => (if i = 0 then 3 else 4, none))).2.1 [1, 0]
      (by decide) (by decide) (by decide)
  · exact (c6_allOf 0 (fun i => if i = 0 then (3, none) else (0, some errTimeout))).2.2
      [] [0] 1 errTimeout (by decide) (by intro i hi; cases hi) rfl

/-- C10: `NewDAG(entry)` registers the entry node at construction time, so
`AddNode` and `AddSubGraph` on the entry id return `ErrDAGNodeExists`, and a
fresh DAG containing only its entry node freezes successfully. -/
theorem c10_entry_registered (e : String) (deps : List String)
    (fn : List (String × Val) → Except GoErr Val) (sub : GDag)
    (im om : Option (List (String × Val) → Val)) :
    addNode (newDAG e) e deps fn = .error errDAGNodeExists
    ∧ addSubGraph (newDAG e) e deps sub im om = .error errDAGNodeExists
    ∧ (newDAG e).freeze = .ok (.mk e [(e, .entry)] true) := by
  have hassoc : assoc [(e, GNode.entry)] e = some GNode.entry := by
    unfold assoc
    rw [if_pos rfl]
  refine ⟨?_, ?_, ?_⟩
  · unfold addNode newDAG
    simp [GDag.frozen, GDag.nodes, hassoc]
  · unfold addSubGraph newDAG
    simp [GDag.frozen, GDag.nodes, hassoc]
  · unfold newDAG GDag.freeze
    have hcomp : checkComplete [(e, GNode.entry)] [(e, GNode.entry)] = none := rfl
    have hvis : kahnVisited [(e, GNode.entry)] = 1 := rfl
    have hcyc : checkCycle [(e, GNode.entry)] = none := by
      unfold checkCycle
      rw [hvis]
      simp
    rw [hcomp, hcyc]
    rfl

theorem checkComplete_none_iff (all : List (String × GNode)) :
    ∀ l : List (String × GNode),
      checkComplete all l = none
        ↔ ∀ p ∈ l, ∀ dep ∈ GNode.deps p.2, (assoc all dep).isSome
  | [] => by simp [checkComplete]
  | (id, n) :: rest => by
    unfold checkComplete
    cases hf : n.deps.find? (fun dep => (assoc all dep).isNone) with
    | some dep =>
      simp only []
      constructor
      · intro h
        exact absurd h (by simp)
      · intro h
        have hmem := List.find?_some hf
        have hdep := List.mem_of_find?_eq_some hf
        have := h (id, n) (List.mem_cons_self _ _) dep hdep
        rw [Option.isNone_iff_eq_none] at hmem
        rw [Option.isSome_iff_exists] at this
        obtain ⟨x, hx⟩ := this
        rw [hx] at hmem
        cases hmem
    | none =>
      rw [List.find?_eq_none] at hf
      rw [checkComplete_none_iff all rest]
      constructor
      · intro h p hp dep hdep
        rcases List.mem_cons.mp hp with heq | hmem
        · subst heq
          have := hf dep hdep
          simpa [Option.isNone_iff_eq_none, ← Option.ne_none_iff_isSome] using this
        · exact h p hmem dep hdep
      · intro h p hp dep hdep
        exact h p (List.mem_cons_of_mem _ hp) dep hdep

theorem checkComplete_some_is (all : List (String × GNode)) :
    ∀ (l : List (String × GNode)) (err : GoErr),
      checkComplete all l = some err → err.is errDAGIncomplete = true
  | [], err, h => by simp [checkComplete] at h
  | (id, n) :: rest, err, h => by
    unfold checkComplete at h
    cases hf : n.deps.find? (fun dep => (assoc all dep).isNone) with
    | some dep =>
      rw [hf] at h
      simp only [Option.some.injEq] at h
      subst h
      exact GoErr.is_wrap_inner _ _ _ (GoErr.is_refl _)
    | none =>
      rw [hf] at h
      exact checkComplete_some_is all rest err h

theorem frozen_freeze_err (sub : GDag) (h : sub.frozen = true) :
    sub.freeze = .error errDAGFrozen := by
  cases sub with
  | mk e ns fz =>
    have : fz = true := h
    subst this
    simp [GDag.freeze]

theorem freezeSubs_err_of_frozen :
    ∀ ns : List (String × GNode),
      (∃ id ds sub i o, (id, GNode.subdag ds sub i o) ∈ ns ∧ sub.frozen = true) →
      ∃ err, freezeSubs ns = .error err
  | [], h => by
    obtain ⟨_, _, _, _, _, hmem, _⟩ := h
    cases hmem
  | (id0, node0) :: rest, h => by
    obtain ⟨id, ds, sub, i, o, hmem, hfz⟩ := h
    cases node0 with
    | subdag ds0 sub0 i0 o0 =>
      cases hsf : sub0.freeze with
      | error err =>
        refine ⟨.wrap ("freeze node " ++ id0 ++ " failed") err, ?_⟩
        simp [freezeSubs, hsf]
      | ok sub0' =>
        rcases List.mem_cons.mp hmem with hed | hmem'
        · have h2 : GNode.subdag ds sub i o = GNode.subdag ds0 sub0 i0 o0 :=
            congrArg Prod.snd hed
          injection h2 with hds hsub hi ho
          rw [← hsub] at hsf
          rw [frozen_freeze_err sub hfz] at hsf
          cases hsf
        · obtain ⟨err, herr⟩ :=
            freezeSubs_err_of_frozen rest ⟨id, ds, sub, i, o, hmem', hfz⟩
          refine ⟨err, ?_⟩
          simp [freezeSubs, hsf, herr]
    | entry =>
      rcases List.mem_cons.mp hmem with hed | hmem'
      · cases hed
      · obtain ⟨err, herr⟩ :=
          freezeSubs_err_of_frozen rest ⟨id, ds, sub, i, o, hmem', hfz⟩
        refine ⟨err, ?_⟩
        simp [freezeSubs, herr]
    | simple ds0 f0 =>
      rcases List.mem_cons.mp hmem with hed | hmem'
      · cases hed
      · obtain ⟨err, herr⟩ :=
          freezeSubs_err_of_frozen rest ⟨id, ds, sub, i, o, hmem', hfz⟩
        refine ⟨err, ?_⟩
        simp [freezeSubs, herr]

mutual
theorem freeze_allFrozen : ∀ d d' : GDag, d.freeze = .ok d' → d'.allFrozen = true
  | .mk e ns true, d', h => by
    simp [GDag.freeze] at h
  | .mk e ns false, d', h => by
    simp only [GDag.freeze, Bool.false_eq_true, if_false] at h
    cases hc : checkComplete ns ns with
    | some err => rw [hc] at h; cases h
    | none =>
      rw [hc] at h
      cases hcy : checkCycle ns with
      | some err => rw [hcy] at h; cases h
      | none =>
        rw [hcy] at h
        cases hfs : freezeSubs ns with
        | error err => rw [hfs] at h; cases h
        | ok ns' =>
          rw [hfs] at h
          injection h with h'
          subst h'
          have := freezeSubs_allFrozen ns ns' hfs
          simp [GDag.allFrozen, this]

theorem freezeSubs_allFrozen :
    ∀ ns ns', freezeSubs ns = .ok ns' → allFrozenSubs ns' = true
  | [], ns', h => by
    injection h with h'
    subst h'
    rfl
  | (id, .subdag ds sub i o) :: rest, ns', h => by
    simp only [freezeSubs] at h
    cases hsf : sub.freeze with
    | error err => rw [hsf] at h; cases h
    | ok sub' =>
      rw [hsf] at h
      cases hrest : freezeSubs rest with
      | error err => rw [hrest] at h; cases h
      | ok rest' =>
        rw [hrest] at h
        injection h with h'
        subst h'
        have h1 := freeze_allFrozen sub sub' hsf
        have h2 := freezeSubs_allFrozen rest rest' hrest
        simp [allFrozenSubs, h1, h2]
  | (id, .entry) :: rest, ns', h => by
    simp only [freezeSubs] at h
    cases hrest : freezeSubs rest with
    | error err => rw [hrest] at h; cases h
    | ok rest' =>
      rw [hrest] at h
      injection h with h'
      subst h'
      have h2 := freezeSubs_allFrozen rest rest' hrest
      simp [allFrozenSubs, h2]
  | (id, .simple ds f) :: rest, ns', h => by
    simp only [freezeSubs] at h
    cases hrest : freezeSubs rest with
    | error err => rw [hrest] at h; cases h
    | ok rest' =>
      rw [hrest] at h
      injection h with h'
      subst h'
      have h2 := freezeSubs_allFrozen rest rest' hrest
      simp [allFrozenSubs, h2]
end

/-- Counterexample to C4 as stated: a DAG that is not frozen, has no missing
dependency and passes the Kahn check (visited = node count) still does not
freeze to nil — its sub-graph node holds an already-frozen inner DAG, so
`Freeze` returns the wrapped `ErrDAGFrozen` from the inner freeze. -/
theorem c4_counterexample :
    GDag.frozen (.mk ("p") [(("p"), .entry),
        (("s"), .subdag [("p")] (.mk ("x") [(("x"), .entry)] true) none none)] false)
      = false
    ∧ checkComplete
        [(("p"), GNode.entry),
          (("s"), .subdag [("p")] (.mk ("x") [(("x"), .entry)] true) none none)]
        [(("p"), GNode.entry),
          (("s"), .subdag [("p")] (.mk ("x") [(("x"), .entry)] true) none none)]
      = none
    ∧ kahnVisited
        [(("p"), GNode.entry),
          (("s"), .subdag [("p")] (.mk ("x") [(("x"), .entry)] true) none none)]
      = 2
    ∧ GDag.freeze (.mk ("p") [(("p"), .entry),
        (("s"), .subdag [("p")] (.mk ("x") [(("x"), .entry)] true) none none)] false)
      = .error (.wrap ("freeze node s failed") errDAGFrozen) :=
  ⟨rfl, rfl, rfl, rfl⟩

/-- C4 (amended): `Freeze` returns `ErrDAGFrozen` on an already-frozen DAG;
returns a wrapped `ErrDAGIncomplete` when some node's declared dependency is
missing from the registry; returns `ErrDAGCyclic` when Kahn's algorithm
visits fewer nodes than the registry holds; and otherwise — provided every
sub-graph freeze also succeeds — returns nil and marks the DAG frozen. -/
theorem c4_freeze_laws :
    (∀ d : GDag, d.frozen = true → d.freeze = .error errDAGFrozen)
    ∧ (∀ d : GDag, d.frozen = false →
        (∃ p ∈ d.nodes, ∃ dep ∈ GNode.deps p.2, assoc d.nodes dep = none) →
        ∃ err, d.freeze = .error err ∧ err.is errDAGIncomplete = true)
    ∧ (∀ d : GDag, d.frozen = false →
        (∀ p ∈ d.nodes, ∀ dep ∈ GNode.deps p.2, (assoc d.nodes dep).isSome) →
        kahnVisited d.nodes < d.nodes.length →
        d.freeze = .error errDAGCyclic)
    ∧ (∀ (d : GDag) (ns' : List (String × GNode)), d.frozen = false →
        (∀ p ∈ d.nodes, ∀ dep ∈ GNode.deps p.2, (assoc d.nodes dep).isSome) →
        kahnVisited d.nodes = d.nodes.length →
        freezeSubs d.nodes = .ok ns' →
        d.freeze = .ok (.mk d.entry ns' true)) := by
  refine ⟨?_, ?_, ?_, ?_⟩
  · intro d h
    exact frozen_freeze_err d h
  · rintro ⟨e, ns, fz⟩ hfz hmiss
    have hfz' : fz = false := hfz
    subst hfz'
    have hns : GDag.nodes (.mk e ns false) = ns := rfl
    rw [hns] at hmiss
    cases hc : checkComplete ns ns with
    | none =>
      obtain ⟨p, hp, dep, hdep, hnone⟩ := hmiss
      have := (checkComplete_none_iff ns ns).mp hc p hp dep hdep
      rw [hnone] at this
      cases this
    | some err =>
      refine ⟨err, ?_, checkComplete_some_is ns ns err hc⟩
      simp [GDag.freeze, hc]
  · rintro ⟨e, ns, fz⟩ hfz hcomp hvis
    have hfz' : fz = false := hfz
    subst hfz'
    have hns : GDag.nodes (.mk e ns false) = ns := rfl
    rw [hns] at hvis
    have hc : checkComplete ns ns = none :=
      (checkComplete_none_iff ns ns).mpr hcomp
    have hcy : checkCycle ns = some errDAGCyclic := by
      unfold checkCycle
      rw [if_pos (by omega)]
    simp [GDag.freeze, hc, hcy]
  · rintro ⟨e, ns, fz⟩ ns' hfz hcomp hvis hfs
    have hfz' : fz = false := hfz
    subst hfz'
    have hns : GDag.nodes (.mk e ns false) = ns := rfl
    rw [hns] at hvis hfs
    have hc : checkComplete ns ns = none :=
      (checkComplete_none_iff ns ns).mpr hcomp
    have hcy : checkCycle ns = none := by
      unfold checkCycle
      rw [if_neg (by omega)]
    simp [GDag.freeze, hc, hcy, hfs, GDag.entry]

/-- Witness for C4 (amended) at concrete inputs: a frozen DAG, a DAG with a
missing dependency, a two-cycle, and a well-formed linear DAG. -/
theorem c4_freeze_laws_witness :
    GDag.freeze (.mk ("e") [(("e"), .entry)] true) = .error errDAGFrozen
    ∧ (∃ err, GDag.freeze (.mk ("e") [(("e"), .entry),
        (("a"), .simple [("zz")] (fun _ => .ok .vNil))] false)
        = .error err ∧ err.is errDAGIncomplete = true)
    ∧ GDag.freeze (.mk ("e") [(("e"), .entry),
        (("a"), .simple [("b")] (fun _ => .ok .vNil)),
        (("b"), .simple [("a")] (fun _ => .ok .vNil))] false)
      = .error errDAGCyclic
    ∧ GDag.freeze (.mk ("e") [(("e"), .entry),
        (("a"), .simple [("e")] (fun _ => .ok .vNil))] false)
      = .ok (.mk ("e") [(("e"), .entry),
          (("a"), .simple [("e")] (fun _ => .ok .vNil))] true) := by
  refine ⟨?_, ?_, ?_, ?_⟩
  · exact c4_freeze_laws.1 _ rfl
  · refine c4_freeze_laws.2.1 _ rfl ?_
    refine ⟨(("a"), .simple [("zz")] (fun _ => .ok .vNil)), ?_, ("zz"), ?_, ?_⟩
    · exact List.mem_cons_of_mem _ (List.mem_singleton.mpr rfl)
    · exact List.mem_singleton.mpr rfl
    · rfl
  · refine c4_freeze_laws.2.2.1 _ rfl ?_ (by decide)
    intro p hp
    rcases List.mem_cons.mp hp with rfl | hp
    · intro dep hdep
      cases hdep
    rcases List.mem_cons.mp hp with rfl | hp
    · intro dep hdep
      rcases List.mem_singleton.mp hdep with rfl
      rfl
    rcases List.mem_singleton.mp hp with rfl
    intro dep hdep
    rcases List.mem_singleton.mp hdep with rfl
    rfl
  · refine c4_freeze_laws.2.2.2 _ _ rfl ?_ (by decide) rfl
    intro p hp
    rcases List.mem_cons.mp hp with rfl | hp
    · intro dep hdep
      cases hdep
    rcases List.mem_singleton.mp hp with rfl
    intro dep hdep
    rcases List.mem_singleton.mp hdep with rfl
    rfl

/-- Counterexample to C5 as stated: a parent whose sub-graph node holds an
already-frozen inner DAG does not freeze successfully — `Freeze` fails with
the wrapped `ErrDAGFrozen` from the inner freeze. -/
theorem c5_counterexample :
    GDag.freeze (.mk ("q") [(("q"), .entry),
        (("t"), .subdag [("q")] (.mk ("y") [(("y"), .entry)] true) none none)] false)
      = .error (.wrap ("freeze node t failed") errDAGFrozen) := rfl

/-- C5 (amended): a successful parent freeze leaves every reachable sub-graph
frozen, but the parent's freeze succeeds only on sub-graphs that are not yet
frozen: a parent holding an already-frozen sub-graph fails to freeze. -/
theorem c5_freeze_transitive :
    (∀ d d' : GDag, d.freeze = .ok d' → d'.allFrozen = true)
    ∧ (∀ d : GDag,
        (∃ id ds sub i o, (id, GNode.subdag ds sub i o) ∈ d.nodes
          ∧ sub.frozen = true) →
        ∃ err, d.freeze = .error err) := by
  refine ⟨freeze_allFrozen, ?_⟩
  rintro ⟨e, ns, fz⟩ hex
  cases fz with
  | true => exact ⟨errDAGFrozen, by simp [GDag.freeze]⟩
  | false =>
    cases hc : checkComplete ns ns with
    | some err => exact ⟨err, by simp [GDag.freeze, hc]⟩
    | none =>
      cases hcy : checkCycle ns with
      | some err => exact ⟨err, by simp [GDag.freeze, hc, hcy]⟩
      | none =>
        obtain ⟨err, herr⟩ := freezeSubs_err_of_frozen ns hex
        exact ⟨err, by simp [GDag.freeze, hc, hcy, herr]⟩

/-- Witness for C5 (amended) at concrete inputs: a parent with an unfrozen
sub-graph freezes and everything reachable ends frozen; a parent with a
pre-frozen sub-graph fails to freeze. -/
theorem c5_freeze_transitive_witness :
    GDag.allFrozen (.mk ("p") [(("p"), .entry),
        (("s"), .subdag [("p")] (.mk ("x") [(("x"), .entry)] true) none none)] true)
      = true
    ∧ (∃ err, GDag.freeze (.mk ("q") [(("q"), .entry),
        (("t"), .subdag [("q")] (.mk ("y") [(("y"), .entry)] true) none none)] false)
        = .error err) := by
  constructor
  · exact c5_freeze_transitive.1
      (.mk ("p") [(("p"), .entry),
        (("s"), .subdag [("p")] (.mk ("x") [(("x"), .entry)] false) none none)] false)
      _ rfl
  · refine c5_freeze_transitive.2 _ ?_
    refine ⟨("t"), [("q")], .mk ("y") [(("y"), .entry)] true, none, none, ?_, rfl⟩
    exact List.mem_cons_of_mem _ (List.mem_singleton.mpr rfl)

theorem readDeps_all_ok (out : String → Option (Except GoErr Val)) :
    ∀ deps : List String, (∀ d ∈ deps, ∃ v, out d = some (.ok v)) →
      ∃ m, readDeps out deps = .ok m
  | [], _ => ⟨[], rfl⟩
  | d :: ds, h => by
    obtain ⟨v, hv⟩ := h d (List.mem_cons_self _ _)
    obtain ⟨m, hm⟩ := readDeps_all_ok out ds (fun d' hd' => h d' (List.mem_cons_of_mem _ hd'))
    refine ⟨(d, v) :: m, ?_⟩
    simp [readDeps, hv, hm]

theorem errNodeSkipped_is_self : errNodeSkipped.is errNodeSkipped = true :=
  GoErr.is_refl _

theorem readDeps_first_err (out : String → Option (Except GoErr Val)) :
    ∀ (pre : List String) (d : String) (post : List String) (e : GoErr),
      (∀ p ∈ pre, ∃ v, out p = some (.ok v)) →
      out d = some (.error e) →
      readDeps out (pre ++ d :: post)
        = (if e.is errNodeSkipped then .error errNodeSkipped
           else .error (.wrap ("dep " ++ d ++ " failed") e))
  | [], d, post, e, _, hd => by
    simp [readDeps, hd]
  | p :: pre, d, post, e, hpre, hd => by
    obtain ⟨v, hv⟩ := hpre p (List.mem_cons_self _ _)
    have ih := readDeps_first_err out pre d post e
      (fun q hq => hpre q (List.mem_cons_of_mem _ hq)) hd
    simp only [List.cons_append, readDeps, hv, List.append_eq]
    rw [ih]
    by_cases h : e.is errNodeSkipped <;> simp [h]

theorem readDeps_skip (out : String → Option (Except GoErr Val)) :
    ∀ deps : List String,
      (∀ d ∈ deps, (∃ v, out d = some (.ok v)) ∨ out d = some (.error errNodeSkipped)) →
      (∃ d ∈ deps, out d = some (.error errNodeSkipped)) →
      readDeps out deps = .error errNodeSkipped
  | [], _, hex => by
    obtain ⟨d, hd, _⟩ := hex
    cases hd
  | d :: ds, hall, hex => by
    rcases hall d (List.mem_cons_self _ _) with ⟨v, hv⟩ | herr
    · obtain ⟨d', hd', hd'err⟩ := hex
      have hd'' : d' ∈ ds := by
        rcases List.mem_cons.mp hd' with rfl | h
        · rw [hv] at hd'err
          cases hd'err
        · exact h
      have ih := readDeps_skip out ds
        (fun q hq => hall q (List.mem_cons_of_mem _ hq)) ⟨d', hd'', hd'err⟩
      simp [readDeps, hv, ih]
    · simp [readDeps, herr, errNodeSkipped_is_self]

theorem readDeps_congr (out₁ out₂ : String → Option (Except GoErr Val)) :
    ∀ deps : List String, (∀ d ∈ deps, out₁ d = out₂ d) →
      readDeps out₁ deps = readDeps out₂ deps
  | [], _ => rfl
  | d :: ds, h => by
    have hd := h d (List.mem_cons_self _ _)
    have ih := readDeps_congr out₁ out₂ ds (fun q hq => h q (List.mem_cons_of_mem _ hq))
    simp only [readDeps, hd, ih]

theorem aggregate_first_err :
    ∀ (pre : List (String × Except GoErr Val)) (id : String) (e : GoErr)
      (post : List (String × Except GoErr Val)),
      (∀ q ∈ pre, (∃ v, q.2 = .ok v)
        ∨ (∃ e', q.2 = .error e' ∧ e'.is errNodeSkipped = true)) →
      e.is errNodeSkipped = false →
      aggregate (pre ++ (id, .error e) :: post)
        = .error (.wrap ("node " ++ id ++ " failed") e)
  | [], id, e, post, _, he => by
    simp [aggregate, he]
  | (id0, x) :: pre, id, e, post, hpre, he => by
    have ih := aggregate_first_err pre id e post
      (fun q hq => hpre q (List.mem_cons_of_mem _ hq)) he
    rcases hpre (id0, x) (List.mem_cons_self _ _) with ⟨v, hv⟩ | ⟨e', he', hskip⟩
    · simp only at hv
      subst hv
      simp [aggregate, ih]
    · simp only at he'
      subst he'
      simp [aggregate, hskip, ih]

/-- C8: a dependency settled with the distinguished `Skipped` error makes the
reading node's outcome exactly `Skipped`, with no wrapping; a dependency
settled with any other error makes the node's outcome that error wrapped as
`dep <id> failed: <err>`; and at aggregation, a node settled with a
non-Skipped error makes the aggregate settle with the error wrapped as
`node <id> failed: <err>`.  Both wrappings keep the original error in the
`errors.Is` cause chain. -/
theorem c8_error_wrapping :
    (∀ (out : String → Option (Except GoErr Val)) (pre : List String) (d : String)
        (post : List String) (e : GoErr),
      (∀ p ∈ pre, ∃ v, out p = some (.ok v)) →
      out d = some (.error e) →
      (e.is errNodeSkipped = true →
        readDeps out (pre ++ d :: post) = .error errNodeSkipped)
      ∧ (e.is errNodeSkipped = false →
        readDeps out (pre ++ d :: post) = .error (.wrap ("dep " ++ d ++ " failed") e)
          ∧ (GoErr.wrap ("dep " ++ d ++ " failed") e).is e = true))
    ∧ (∀ (pre : List (String × Except GoErr Val)) (id : String) (e : GoErr)
        (post : List (String × Except GoErr Val)),
      (∀ q ∈ pre, (∃ v, q.2 = .ok v)
        ∨ (∃ e', q.2 = .error e' ∧ e'.is errNodeSkipped = true)) →
      e.is errNodeSkipped = false →
      aggregate (pre ++ (id, .error e) :: post)
        = .error (.wrap ("node " ++ id ++ " failed") e)
        ∧ (GoErr.wrap ("node " ++ id ++ " failed") e).is e = true) := by
  constructor
  · intro out pre d post e hpre hd
    constructor
    · intro hskip
      rw [readDeps_first_err out pre d post e hpre hd, if_pos hskip]
    · intro hnskip
      refine ⟨?_, GoErr.is_wrap_inner _ _ _ (GoErr.is_refl e)⟩
      rw [readDeps_first_err out pre d post e hpre hd,
        if_neg (by simp [hnskip])]
  · intro pre id e post hpre he
    exact ⟨aggregate_first_err pre id e post hpre he,
      GoErr.is_wrap_inner _ _ _ (GoErr.is_refl e)⟩

/-- Witness for C8 at concrete inputs: a skipped dependency, a failing
dependency, and a failing node at aggregation. -/
theorem c8_error_wrapping_witness :
    readDeps (fun id => if id = ("a") then some (.ok (.vInt 1))
        else if id = ("b") then some (.error errNodeSkipped) else none)
      [("a"), ("b")] = .error errNodeSkipped
    ∧ readDeps (fun id => if id = ("a") then some (.ok (.vInt 1))
        else if id = ("b") then some (.error (.base ("boom"))) else none)
      [("a"), ("b")] = .error (.wrap ("dep b failed") (.base ("boom")))
    ∧ aggregate [(("a"), .ok (.vInt 1)), (("x"), .error errNodeSkipped),
        (("b"), .error (.base ("boom")))]
      = .error (.wrap ("node b failed") (.base ("boom"))) := by
  refine ⟨?_, ?_, ?_⟩
  · exact ((c8_error_wrapping.1 _ [("a")] ("b") [] errNodeSkipped
      (by intro p hp; rcases List.mem_singleton.mp hp with rfl; exact ⟨.vInt 1, rfl⟩)
      rfl).1) rfl
  · exact (((c8_error_wrapping.1 _ [("a")] ("b") [] (.base ("boom"))
      (by intro p hp; rcases List.mem_singleton.mp hp with rfl; exact ⟨.vInt 1, rfl⟩)
      rfl).2) rfl).1
  · exact ((c8_error_wrapping.2 [(("a"), .ok (.vInt 1)), (("x"), .error errNodeSkipped)]
      ("b") (.base ("boom")) []
      (by
        intro q hq
        rcases List.mem_cons.mp hq with rfl | hq
        · exact Or.inl ⟨.vInt 1, rfl⟩
        rcases List.mem_singleton.mp hq with rfl
        exact Or.inr ⟨errNodeSkipped, rfl, errNodeSkipped_is_self⟩)
      rfl).1)

theorem assoc_append {β : Type} (l₁ l₂ : List (String × β)) (k : String) :
    assoc (l₁ ++ l₂) k
      = match assoc l₁ k with
        | some v => some v
        | none => assoc l₂ k := by
  induction l₁ with
  | nil => simp [assoc]
  | cons p l₁ ih =>
    by_cases h : p.1 = k
    · simp [assoc, h]
    · simp only [List.cons_append]
      show assoc (p :: (l₁ ++ l₂)) k = _
      simp [assoc, h, ih]

theorem assoc_mem {β : Type} :
    ∀ (l : List (String × β)) (k : String) (v : β), assoc l k = some v → (k, v) ∈ l
  | [], k, v, h => by cases h
  | (k0, v0) :: l, k, v, h => by
    by_cases hk : k0 = k
    · subst hk
      simp [assoc] at h
      subst h
      exact List.mem_cons_self _ _
    · simp [assoc, hk] at h
      exact List.mem_cons_of_mem _ (assoc_mem l k v h)

theorem assoc_eq_none_iff {β : Type} :
    ∀ (l : List (String × β)) (k : String),
      assoc l k = none ↔ k ∉ l.map Prod.fst
  | [], k => by simp [assoc]
  | (k0, v0) :: l, k => by
    by_cases hk : k0 = k
    · subst hk
      simp [assoc]
    · simp [assoc, hk, assoc_eq_none_iff l k, Ne.symm hk]

theorem assoc_of_mem_nodup {β : Type} :
    ∀ (l : List (String × β)) (k : String) (v : β),
      (l.map Prod.fst).Nodup → (k, v) ∈ l → assoc l k = some v
  | [], k, v, _, h => by cases h
  | (k0, v0) :: l, k, v, hnd, h => by
    rcases List.mem_cons.mp h with heq | hmem
    · injection heq with h1 h2
      subst h1
      subst h2
      simp [assoc]
    · rw [List.map_cons] at hnd
      have h1 := (List.nodup_cons.mp hnd).1
      have h2 := (List.nodup_cons.mp hnd).2
      have hk : k0 ≠ k := by
        intro hk
        subst hk
        exact h1 (List.mem_map.mpr ⟨(k0, v), hmem, rfl⟩)
      simp only [assoc, if_neg hk]
      exact assoc_of_mem_nodup l k v h2 hmem

theorem foldl_outsStep_mem (g : RGraph) :
    ∀ (l : List String) (acc : List (String × Except GoErr Val))
      (p : String × Except GoErr Val),
      p ∈ l.foldl (outsStep g) acc → p ∈ acc ∨ p.1 ∈ l
  | [], acc, p, h => Or.inl h
  | id :: l, acc, p, h => by
    rcases foldl_outsStep_mem g l (outsStep g acc id) p h with hin | hin
    · unfold outsStep at hin
      cases hn : assoc g.nodes id with
      | none => rw [hn] at hin; exact Or.inl hin
      | some n =>
        rw [hn] at hin
        rcases List.mem_append.mp hin with hin | hin
        · exact Or.inl hin
        · rcases List.mem_singleton.mp hin with rfl
          exact Or.inr (List.mem_cons_self _ _)
    · exact Or.inr (List.mem_cons_of_mem _ hin)

theorem assoc_foldl_stable (g : RGraph) :
    ∀ (l : List String) (acc : List (String × Except GoErr Val)) (k : String)
      (x : Except GoErr Val), assoc acc k = some x →
      assoc (l.foldl (outsStep g) acc) k = some x
  | [], acc, k, x, h => h
  | id :: l, acc, k, x, h => by
    refine assoc_foldl_stable g l (outsStep g acc id) k x ?_
    unfold outsStep
    cases hn : assoc g.nodes id with
    | none => exact h
    | some n =>
      rw [assoc_append]
      rw [h]

theorem assoc_foldl_isSome (g : RGraph) :
    ∀ (l : List String) (acc : List (String × Except GoErr Val)) (k : String),
      (assoc acc k).isSome → (assoc (l.foldl (outsStep g) acc) k).isSome := by
  intro l acc k h
  rw [Option.isSome_iff_exists] at h
  obtain ⟨x, hx⟩ := h
  rw [assoc_foldl_stable g l acc k x hx]
  rfl

theorem foldl_outsStep_covers (g : RGraph) :
    ∀ (l : List String) (acc : List (String × Except GoErr Val)) (d : String),
      d ∈ l → (assoc g.nodes d).isSome →
      (assoc (l.foldl (outsStep g) acc) d).isSome
  | [], acc, d, hd, _ => by cases hd
  | id :: l, acc, d, hd, hg => by
    rcases List.mem_cons.mp hd with rfl | hd'
    · refine assoc_foldl_isSome g l (outsStep g acc d) d ?_
      unfold outsStep
      rw [Option.isSome_iff_exists] at hg
      obtain ⟨n, hn⟩ := hg
      rw [hn, assoc_append]
      cases hacc : assoc acc d with
      | some y => rfl
      | none => simp [assoc]
    · exact foldl_outsStep_covers g l (outsStep g acc id) d hd' hg

theorem foldl_outsStep_keys_nodup (g : RGraph) :
    ∀ (l : List String) (acc : List (String × Except GoErr Val)),
      (acc.map Prod.fst).Nodup → l.Nodup →
      (∀ id ∈ l, id ∉ acc.map Prod.fst) →
      ((l.foldl (outsStep g) acc).map Prod.fst).Nodup
  | [], acc, hacc, _, _ => hacc
  | id :: l, acc, hacc, hl, hdisj => by
    have hl' : l.Nodup := hl.of_cons
    have hidl : id ∉ l := (List.nodup_cons.mp hl).1
    refine foldl_outsStep_keys_nodup g l (outsStep g acc id) ?_ hl' ?_
    · unfold outsStep
      cases hn : assoc g.nodes id with
      | none => exact hacc
      | some n =>
        rw [List.map_append]
        simp only [List.map_cons, List.map_nil]
        rw [List.nodup_append]
        refine ⟨hacc, List.nodup_singleton _, ?_⟩
        intro a ha hb
        have hab : a = id := List.mem_singleton.mp hb
        exact hdisj id (List.mem_cons_self _ _) (hab ▸ ha)
    · intro id' hid'
      unfold outsStep
      cases hn : assoc g.nodes id with
      | none => exact hdisj id' (List.mem_cons_of_mem _ hid')
      | some n =>
        rw [List.map_append]
        intro hmem
        rcases List.mem_append.mp hmem with hmem | hmem
        · exact hdisj id' (List.mem_cons_of_mem _ hid') hmem
        · simp only [List.map_cons, List.map_nil, List.mem_singleton] at hmem
          subst hmem
          exact hidl hid'

theorem topo_parts {g : RGraph} {order : List String} (h : isTopo g order = true) :
    order.Nodup
    ∧ (∀ p ∈ g.nodes, p.1 ∈ order)
    ∧ (∀ id ∈ order, ∃ n, assoc g.nodes id = some n
        ∧ ∀ d ∈ n.deps, order.indexOf d < order.indexOf id) := by
  unfold isTopo at h
  rw [Bool.and_eq_true, Bool.and_eq_true] at h
  obtain ⟨⟨h1, h2⟩, h3⟩ := h
  refine ⟨by simpa using h1, ?_, ?_⟩
  · intro p hp
    have := List.all_eq_true.mp h2 p hp
    simpa using this
  · intro id hid
    have := List.all_eq_true.mp h3 id hid
    cases hn : assoc g.nodes id with
    | none => rw [hn] at this; cases this
    | some n =>
      rw [hn] at this
      refine ⟨n, rfl, ?_⟩
      intro d hd
      have := List.all_eq_true.mp this d hd
      simpa using this

theorem indexOf_append_not_mem (a : String) :
    ∀ (l₁ l₂ : List String), a ∉ l₁ →
      (l₁ ++ l₂).indexOf a = l₁.length + l₂.indexOf a
  | [], l₂, _ => by simp
  | b :: l₁, l₂, h => by
    have hba : b ≠ a := fun hba => h (hba ▸ List.mem_cons_self b l₁)
    have h' : a ∉ l₁ := fun h' => h (List.mem_cons_of_mem _ h')
    rw [List.cons_append, List.indexOf_cons_ne _ hba,
      indexOf_append_not_mem a l₁ l₂ h']
    simp [Nat.succ_add]

theorem mem_left_of_indexOf_lt {l₁ l₂ : List String} {a : String}
    (h : (l₁ ++ l₂).indexOf a < l₁.length) : a ∈ l₁ := by
  by_contra hmem
  rw [indexOf_append_not_mem a l₁ l₂ hmem] at h
  omega

theorem reachB_mono (g : RGraph) :
    ∀ (fuel : Nat) (y x : String), reachB g fuel y x = true →
      reachB g (fuel + 1) y x = true
  | 0, y, x, h => by cases h
  | fuel + 1, y, x, h => by
    cases hn : assoc g.nodes y with
    | none => simp [reachB, hn] at h
    | some n =>
      simp only [reachB, hn] at h ⊢
      rw [List.any_eq_true] at h ⊢
      obtain ⟨d, hd, hor⟩ := h
      refine ⟨d, hd, ?_⟩
      rw [Bool.or_eq_true] at hor ⊢
      rcases hor with hdx | hr
      · exact Or.inl hdx
      · exact Or.inr (reachB_mono g fuel d x hr)

theorem reachB_indexOf_lt {g : RGraph} {order : List String}
    (hT : isTopo g order = true) :
    ∀ (fuel : Nat) (y x : String), reachB g fuel y x = true →
      order.indexOf x < order.indexOf y
  | 0, y, x, h => by cases h
  | fuel + 1, y, x, h => by
    cases hn : assoc g.nodes y with
    | none => simp [reachB, hn] at h
    | some n =>
      simp only [reachB, hn] at h
      rw [List.any_eq_true] at h
      obtain ⟨d, hd, hor⟩ := h
      have hy : y ∈ order := (topo_parts hT).2.1 (y, n) (assoc_mem g.nodes y n hn)
      obtain ⟨n', hn', hdeps⟩ := (topo_parts hT).2.2 y hy
      rw [hn] at hn'
      injection hn' with hn'
      subst hn'
      have hdy : order.indexOf d < order.indexOf y := hdeps d hd
      rw [Bool.or_eq_true] at hor
      rcases hor with hdx | hr
      · have : d = x := by simpa using hdx
        subst this
        exact hdy
      · exact Nat.lt_trans (reachB_indexOf_lt hT fuel d x hr) hdy

theorem descB_unfold {g : RGraph} {x y : String} (h : descB g x y = true) :
    ∃ n, assoc g.nodes y = some n
      ∧ ∃ d ∈ n.deps, d = x ∨ descB g x d = true := by
  unfold descB at h ⊢
  cases hlen : g.nodes.length with
  | zero => rw [hlen] at h; cases h
  | succ m =>
    rw [hlen] at h
    cases hn : assoc g.nodes y with
    | none => simp [reachB, hn] at h
    | some n =>
      simp only [reachB, hn] at h
      rw [List.any_eq_true] at h
      obtain ⟨d, hd, hor⟩ := h
      refine ⟨n, rfl, d, hd, ?_⟩
      rw [Bool.or_eq_true] at hor
      rcases hor with hdx | hr
      · exact Or.inl (by simpa using hdx)
      · exact Or.inr (reachB_mono g m d x hr)

theorem descB_indexOf_lt {g : RGraph} {order : List String}
    (hT : isTopo g order = true) {x y : String} (h : descB g x y = true) :
    order.indexOf x < order.indexOf y :=
  reachB_indexOf_lt hT g.nodes.length y x h

theorem outAt_fixpoint (g : RGraph) (order : List String)
    (hT : isTopo g order = true) (id : String) (n : RNode)
    (hid : assoc g.nodes id = some n) :
    outAt g order id = some (computeOut (outsList g order) n) := by
  have hmem : id ∈ order := (topo_parts hT).2.1 (id, n) (assoc_mem g.nodes id n hid)
  obtain ⟨l₁, l₂, horder⟩ := List.append_of_mem hmem
  have hnd : order.Nodup := (topo_parts hT).1
  have hid1 : id ∉ l₁ := by
    rw [horder] at hnd
    intro hin
    have := List.disjoint_of_nodup_append hnd
    exact List.disjoint_left.mp this hin (List.mem_cons_self _ _)
  have hAkeys : assoc (outsList g l₁) id = none := by
    rw [assoc_eq_none_iff]
    intro hin
    rw [List.mem_map] at hin
    obtain ⟨p, hp, hfst⟩ := hin
    rcases foldl_outsStep_mem g l₁ [] p hp with h0 | h0
    · cases h0
    · rw [hfst] at h0
      exact hid1 h0
  have hstep : outsStep g (outsList g l₁) id
      = outsList g l₁ ++ [(id, computeOut (outsList g l₁) n)] := by
    unfold outsStep
    rw [hid]
  have hval : assoc (outsStep g (outsList g l₁) id) id
      = some (computeOut (outsList g l₁) n) := by
    rw [hstep, assoc_append, hAkeys]
    simp [assoc]
  have hfull : outsList g order
      = l₂.foldl (outsStep g) (outsStep g (outsList g l₁) id) := by
    rw [horder]
    unfold outsList
    rw [List.foldl_append, List.foldl_cons]
  have houtAt : outAt g order id = some (computeOut (outsList g l₁) n) := by
    unfold outAt
    rw [hfull]
    exact assoc_foldl_stable g l₂ _ id _ hval
  rw [houtAt]
  congr 1
  unfold computeOut
  have hagree : ∀ d ∈ n.deps,
      assoc (outsList g l₁) d = assoc (outsList g order) d := by
    intro d hd
    obtain ⟨n', hn', hdeps⟩ := (topo_parts hT).2.2 id hmem
    rw [hid] at hn'
    injection hn' with hn'
    subst hn'
    have hdlt : order.indexOf d < order.indexOf id := hdeps d hd
    have hidix : order.indexOf id = l₁.length := by
      rw [horder, indexOf_append_not_mem id l₁ _ hid1]
      simp
    have hdl1 : d ∈ l₁ := by
      refine @mem_left_of_indexOf_lt l₁ (id :: l₂) d ?_
      rw [← horder]
      omega
    have hdord : d ∈ order := by
      rw [horder]
      exact List.mem_append_left _ hdl1
    obtain ⟨nd, hnd', _⟩ := (topo_parts hT).2.2 d hdord
    have hsome : (assoc (outsList g l₁) d).isSome := by
      refine foldl_outsStep_covers g l₁ [] d hdl1 ?_
      rw [hnd']
      rfl
    rw [Option.isSome_iff_exists] at hsome
    obtain ⟨x, hx⟩ := hsome
    rw [hx]
    have : assoc (outsList g order) d = some x := by
      rw [hfull, hstep]
      refine assoc_foldl_stable g l₂ _ d x ?_
      rw [assoc_append, hx]
    rw [this]
  rw [readDeps_congr (assoc (outsList g l₁)) (assoc (outsList g order)) n.deps hagree]

theorem aggregate_all_ok :
    ∀ outs : List (String × Except GoErr Val),
      (∀ p ∈ outs, (∃ v, p.2 = .ok v) ∨ p.2 = .error errNodeSkipped) →
      aggregate outs = .ok (outs.filterMap (fun p =>
        match p.2 with
        | .ok v => some (p.1, v)
        | .error _ => none))
  | [], _ => rfl
  | (id, x) :: outs, h => by
    have ih := aggregate_all_ok outs (fun q hq => h q (List.mem_cons_of_mem _ hq))
    rcases h (id, x) (List.mem_cons_self _ _) with ⟨v, hv⟩ | hv
    · simp only at hv
      subst hv
      simp [aggregate, ih, List.filterMap_cons]
    · simp only at hv
      subst hv
      simp [aggregate, ih, List.filterMap_cons, errNodeSkipped_is_self]

theorem resultMap_keys_sublist :
    ∀ outs : List (String × Except GoErr Val),
      ((outs.filterMap (fun p =>
        match p.2 with
        | .ok v => some (p.1, v)
        | .error _ => none)).map Prod.fst).Sublist (outs.map Prod.fst)
  | [] => List.Sublist.refl _
  | (id, x) :: outs => by
    cases x with
    | ok v =>
      simp only [List.filterMap_cons, List.map_cons]
      exact (resultMap_keys_sublist outs).cons₂ id
    | error e =>
      simp only [List.filterMap_cons, List.map_cons]
      exact (resultMap_keys_sublist outs).cons id

/-- C3 (amended): if node `X`'s run function returns the distinguished
`Skipped` error and every node that is neither `X` nor a descendant of `X`
settles with a value, then every descendant of `X` (and `X` itself) settles
with exactly `Skipped`, and the aggregate of `RunAsync` settles without
error with a result map that omits `X` and all its descendants while the
remaining nodes' results are present. -/
theorem c3_skip_propagation (g : RGraph) (order : List String) (X : String)
    (nX : RNode) (hT : isTopo g order = true)
    (hX : assoc g.nodes X = some nX)
    (hXrun : ∀ m, nX.run m = .error errNodeSkipped)
    (hOk : ∀ p ∈ g.nodes, p.1 ≠ X → descB g X p.1 = false →
      ∃ v, outAt g order p.1 = some (.ok v)) :
    (∀ id, (assoc g.nodes id).isSome → (id = X ∨ descB g X id = true) →
      outAt g order id = some (.error errNodeSkipped))
    ∧ ∃ m, aggregate (outsList g order) = .ok m
        ∧ (∀ id, (id = X ∨ descB g X id = true) → assoc m id = none)
        ∧ (∀ p ∈ g.nodes, p.1 ≠ X → descB g X p.1 = false →
            ∃ v, assoc m p.1 = some v ∧ outAt g order p.1 = some (.ok v)) := by
  have hdepmem : ∀ id ∈ order, ∀ n, assoc g.nodes id = some n →
      ∀ d ∈ n.deps, d ∈ order ∧ ∃ nd, assoc g.nodes d = some nd := by
    intro id hid n hn d hd
    obtain ⟨n', hn', hdeps⟩ := (topo_parts hT).2.2 id hid
    rw [hn] at hn'
    injection hn' with hn'
    subst hn'
    have h1 : order.indexOf d < order.indexOf id := hdeps d hd
    have h2 : order.indexOf id < order.length := List.indexOf_lt_length.mpr hid
    have hdord : d ∈ order := List.indexOf_lt_length.mp (by omega)
    obtain ⟨nd, hnd, _⟩ := (topo_parts hT).2.2 d hdord
    exact ⟨hdord, nd, hnd⟩
  have main : ∀ k, ∀ id n, order.indexOf id = k → assoc g.nodes id = some n →
      (id = X ∨ descB g X id = true) →
      outAt g order id = some (.error errNodeSkipped) := by
    intro k
    induction k using Nat.strong_induction_on with
    | _ k ih =>
      intro id n hk hn hcls
      have hidord : id ∈ order := (topo_parts hT).2.1 (id, n) (assoc_mem _ _ _ hn)
      have hfix := outAt_fixpoint g order hT id n hn
      obtain ⟨n', hn', hdeps⟩ := (topo_parts hT).2.2 id hidord
      rw [hn] at hn'
      injection hn' with hn'
      subst hn'
      have hdepskip : ∀ d ∈ n.deps, (d = X ∨ descB g X d = true) →
          outAt g order d = some (.error errNodeSkipped) := by
        intro d hd hdx
        obtain ⟨hdord, nd, hnd⟩ := hdepmem id hidord n hn d hd
        have hlt : order.indexOf d < k := by
          have := hdeps d hd
          omega
        exact ih (order.indexOf d) hlt d nd rfl hnd hdx
      have hdepok : ∀ d ∈ n.deps, ¬(d = X ∨ descB g X d = true) →
          ∃ v, outAt g order d = some (.ok v) := by
        intro d hd hdx
        push_neg at hdx
        obtain ⟨hdord, nd, hnd⟩ := hdepmem id hidord n hn d hd
        exact hOk (d, nd) (assoc_mem _ _ _ hnd) hdx.1 (by simpa using hdx.2)
      rcases hcls with hidX | hdesc
      · -- id = X: every dependency is a non-descendant, so the dependency
        -- read succeeds and the run function returns Skipped.
        have hall : ∀ d ∈ n.deps, ∃ v, assoc (outsList g order) d = some (.ok v) := by
          intro d hd
          refine hdepok d hd ?_
          rintro (rfl | hdx)
          · have := hdeps d hd
            rw [hidX] at this hidord
            exact absurd this (by omega)
          · have h1 := descB_indexOf_lt hT hdx
            have h2 := hdeps d hd
            rw [hidX] at h2
            omega
        obtain ⟨m, hm⟩ := readDeps_all_ok (assoc (outsList g order)) n.deps hall
        have hco : computeOut (outsList g order) n = .error errNodeSkipped := by
          unfold computeOut
          rw [hm]
          subst hidX
          rw [hn] at hX
          injection hX with hX'
          rw [hX']
          exact hXrun m
        rw [hfix, hco]
      · -- id is a proper descendant of X: some dependency on the path is X
        -- or a descendant, and all errored dependencies carry Skipped.
        obtain ⟨n'', hn'', d0, hd0, hd0x⟩ := descB_unfold hdesc
        rw [hn] at hn''
        injection hn'' with hn''
        subst hn''
        have hall : ∀ d ∈ n.deps,
            (∃ v, assoc (outsList g order) d = some (.ok v))
            ∨ assoc (outsList g order) d = some (.error errNodeSkipped) := by
          intro d hd
          by_cases hdx : d = X ∨ descB g X d = true
          · exact Or.inr (hdepskip d hd hdx)
          · exact Or.inl (hdepok d hd hdx)
        have hex : ∃ d ∈ n.deps,
            assoc (outsList g order) d = some (.error errNodeSkipped) :=
          ⟨d0, hd0, hdepskip d0 hd0 hd0x⟩
        have hrd := readDeps_skip (assoc (outsList g order)) n.deps hall hex
        have hco : computeOut (outsList g order) n = .error errNodeSkipped := by
          unfold computeOut
          rw [hrd]
        rw [hfix, hco]
  have hkeysnd : ((outsList g order).map Prod.fst).Nodup := by
    refine foldl_outsStep_keys_nodup g order [] (by simp) (topo_parts hT).1 ?_
    intro id _ h
    cases h
  have houts_mem : ∀ p ∈ outsList g order,
      (∃ v, p.2 = .ok v) ∨ p.2 = .error errNodeSkipped := by
    intro p hp
    have hpord : p.1 ∈ order := by
      rcases foldl_outsStep_mem g order [] p hp with h0 | h0
      · cases h0
      · exact h0
    obtain ⟨n, hn, _⟩ := (topo_parts hT).2.2 p.1 hpord
    have hpassoc : assoc (outsList g order) p.1 = some p.2 :=
      assoc_of_mem_nodup _ _ _ hkeysnd hp
    by_cases hcls : p.1 = X ∨ descB g X p.1 = true
    · right
      have := main (order.indexOf p.1) p.1 n rfl hn hcls
      unfold outAt at this
      rw [hpassoc] at this
      injection this
    · left
      push_neg at hcls
      obtain ⟨v, hv⟩ := hOk (p.1, n) (assoc_mem _ _ _ hn) hcls.1 (by simpa using hcls.2)
      unfold outAt at hv
      rw [hpassoc] at hv
      injection hv with hv
      exact ⟨v, hv⟩
  refine ⟨fun id hsome hcls => ?_, ?_⟩
  · rw [Option.isSome_iff_exists] at hsome
    obtain ⟨n, hn⟩ := hsome
    exact main (order.indexOf id) id n rfl hn hcls
  · refine ⟨(outsList g order).filterMap (fun p =>
      match p.2 with
      | .ok v => some (p.1, v)
      | .error _ => none), aggregate_all_ok _ houts_mem, ?_, ?_⟩
    · intro id hcls
      rw [assoc_eq_none_iff]
      intro hin
      rw [List.mem_map] at hin
      obtain ⟨q, hq, hqfst⟩ := hin
      rw [List.mem_filterMap] at hq
      obtain ⟨p, hp, hf⟩ := hq
      cases hpe : p.2 with
      | error e => rw [hpe] at hf; cases hf
      | ok v =>
        rw [hpe] at hf
        injection hf with hf
        subst hf
        simp only at hqfst
        have hpord : p.1 ∈ order := by
          rcases foldl_outsStep_mem g order [] p hp with h0 | h0
          · cases h0
          · exact h0
        obtain ⟨n, hn, _⟩ := (topo_parts hT).2.2 p.1 hpord
        have hpassoc : assoc (outsList g order) p.1 = some p.2 :=
          assoc_of_mem_nodup _ _ _ hkeysnd hp
        have := main (order.indexOf p.1) p.1 n rfl hn (hqfst ▸ hcls)
        unfold outAt at this
        rw [hpassoc, hpe] at this
        injection this with this
        cases this
    · intro p hp hpne hpdesc
      obtain ⟨v, hv⟩ := hOk p hp hpne hpdesc
      refine ⟨v, ?_, hv⟩
      have hv' : (p.1, Except.ok (ε := GoErr) v) ∈ outsList g order := by
        apply assoc_mem
        unfold outAt at hv
        exact hv
      have hmem : (p.1, v) ∈ (outsList g order).filterMap (fun q =>
          match q.2 with
          | .ok v => some (q.1, v)
          | .error _ => none) :=
        List.mem_filterMap.mpr ⟨(p.1, .ok v), hv', rfl⟩
      refine assoc_of_mem_nodup _ _ _ ?_ hmem
      exact List.Nodup.sublist (resultMap_keys_sublist _) hkeysnd

/-- Counterexample to C3 as stated: in `c3cg` node `X`'s run function returns
`Skipped` and `Y` is a descendant of `X`, yet `Y` settles with
`dep F failed: boom` (not `Skipped`) because its other dependency `F` failed
first, and the aggregate settles with the error `node F failed: boom`
instead of settling without error. -/
theorem c3_counterexample :
    isTopo c3cg c3order = true
    ∧ descB c3cg ("X") ("Y") = true
    ∧ (∀ m, ((⟨[("F"), ("X")], fun _ => .ok (.vInt 7)⟩ : RNode)).run m
        = .ok (.vInt 7))
    ∧ outAt c3cg c3order ("X") = some (.error errNodeSkipped)
    ∧ outAt c3cg c3order ("Y")
        = some (.error (.wrap ("dep F failed") (.base ("boom"))))
    ∧ aggregate (outsList c3cg c3order)
        = .error (.wrap ("node F failed") (.base ("boom"))) :=
  ⟨rfl, rfl, fun _ => rfl, rfl, rfl, rfl⟩

/-- Witness for C3 (amended) at a concrete graph: entry `E`, skipping node
`X`, dependent `Y`; `Y` settles `Skipped` and the aggregate omits `X` and
`Y` while keeping `E`. -/
theorem c3_skip_propagation_witness :
    outAt c3wg c3worder ("Y") = some (.error errNodeSkipped)
    ∧ ∃ m, aggregate (outsList c3wg c3worder) = .ok m
        ∧ assoc m ("Y") = none
        ∧ assoc m ("X") = none
        ∧ ∃ v, assoc m ("E") = some v := by
  have h := c3_skip_propagation c3wg c3worder ("X")
    ⟨[("E")], fun _ => .error errNodeSkipped⟩ rfl rfl (fun _ => rfl) ?hOk
  case hOk =>
    intro p hp hne hnd
    rcases List.mem_cons.mp hp with rfl | hp
    · exact ⟨.vInt 0, rfl⟩
    rcases List.mem_cons.mp hp with rfl | hp
    · exact absurd rfl hne
    rcases List.mem_singleton.mp hp with rfl
    exact absurd hnd (by decide)
  obtain ⟨m, hagg, hnone, hok⟩ := h.2
  refine ⟨h.1 ("Y") rfl (Or.inr rfl), m, hagg, hnone ("Y") (Or.inr rfl),
    hnone ("X") (Or.inl rfl), ?_⟩
  obtain ⟨v, hv, _⟩ := hok (("E"), ⟨[], fun _ => .ok (.vInt 0)⟩)
    (List.mem_cons_self _ _) (by decide) (by decide)
  exact ⟨v, hv⟩

theorem foldl_outsStep_val (g : RGraph) :
    ∀ (l : List String) (acc : List (String × Except GoErr Val))
      (p : String × Except GoErr Val),
      p ∈ l.foldl (outsStep g) acc →
      p ∈ acc ∨ ∃ n acc', assoc g.nodes p.1 = some n ∧ p.2 = computeOut acc' n
  | [], acc, p, h => Or.inl h
  | id :: l, acc, p, h => by
    rcases foldl_outsStep_val g l (outsStep g acc id) p h with hin | hin
    · unfold outsStep at hin
      cases hn : assoc g.nodes id with
      | none => rw [hn] at hin; exact Or.inl hin
      | some n =>
        rw [hn] at hin
        rcases List.mem_append.mp hin with hin | hin
        · exact Or.inl hin
        · rcases List.mem_singleton.mp hin with rfl
          exact Or.inr ⟨n, acc, hn, rfl⟩
    · exact Or.inr hin

theorem assoc_buildNodes (ev : GDag → Val → IOpts → List (String × Except GoErr Val))
    (ent : String) (input : Val) (opts : IOpts) :
    ∀ (ns : List (String × GNode)) (id : String) (n : RNode),
      assoc (buildNodes ev ent input opts ns) id = some n →
      ∃ spec, assoc ns id = some spec
        ∧ n = ⟨GNode.deps spec,
            applyItcs opts.interceptors (baseRunOf ev ent input opts id spec)⟩
  | [], id, n, h => by cases h
  | (id0, spec0) :: ns, id, n, h => by
    by_cases hid : id0 = id
    · subst hid
      simp only [buildNodes, assoc, if_pos rfl] at h ⊢
      injection h with h
      exact ⟨spec0, rfl, h.symm⟩
    · simp only [buildNodes, assoc, if_neg hid] at h ⊢
      exact assoc_buildNodes ev ent input opts ns id n h

theorem baseRunOf_preset (ev : GDag → Val → IOpts → List (String × Except GoErr Val))
    (ent : String) (input : Val) (opts : IOpts) (id : String) (spec : GNode)
    (r : Val) (h : presetOf ent input opts id = some r) :
    baseRunOf ev ent input opts id spec = fun _ => .ok r := by
  unfold baseRunOf
  rw [h]

/-- C9: sub-graphs are instantiated with exactly the parent's option set.
(i) With the marking interceptor outermost, every successful node outcome at
any DAG level — the quantification over all `d` and `fuel` covers every
nested sub-graph, which `baseRunOf` evaluates with the same `opts` — carries
the mark.  (ii) With no interceptors, a node whose id carries a precomputed
result can only settle with that result, again at every level.  (iii) The
bound run function of a sub-graph node runs the inner DAG with the
unmodified option set `opts`. -/
theorem c9_option_propagation :
    (∀ (σ : GDag → List String) (fuel : Nat) (d : GDag) (input : Val)
        (opts : IOpts)
        (rest : List ((List (String × Val) → Except GoErr Val) →
          List (String × Val) → Except GoErr Val)),
      opts.interceptors = markItc :: rest →
      ∀ id out, (id, out) ∈ evalDag σ fuel d input opts →
        ∀ v, out = .ok v → ∃ w, v = .vMark w)
    ∧ (∀ (σ : GDag → List String) (fuel : Nat) (d : GDag) (input : Val)
        (opts : IOpts),
      opts.interceptors = [] →
      ∀ id out, (id, out) ∈ evalDag σ fuel d input opts →
        ∀ r, assoc opts.nodeResults id = some r →
        ∀ v, out = .ok v → v = r)
    ∧ (∀ (ev : GDag → Val → IOpts → List (String × Except GoErr Val))
        (ent : String) (input : Val) (opts : IOpts)
        (id : String) (ds : List String) (sub : GDag) (depm : List (String × Val)),
      presetOf ent input opts id = none → sub.frozen = true →
      baseRunOf ev ent input opts id (.subdag ds sub none none) depm
        = match aggregate (ev sub (Val.vMap depm) opts) with
          | .error err => .error (.wrap ("run sub DAG failed") err)
          | .ok m => .ok (Val.vMap m)) := by
  refine ⟨?_, ?_, ?_⟩
  · intro σ fuel d input opts rest hitc id out hmem v hok
    cases fuel with
    | zero => cases hmem
    | succ fuel =>
      simp only [evalDag] at hmem
      rcases foldl_outsStep_val _ _ [] (id, out) hmem with h0 | ⟨n, acc', hn, hout⟩
      · cases h0
      · obtain ⟨spec, _, hnspec⟩ :=
          assoc_buildNodes (evalDag σ fuel) d.entry input opts d.nodes id n hn
        subst hnspec
        simp only at hout
        rw [hitc] at hout
        subst hok
        unfold computeOut at hout
        cases hrd : readDeps (assoc acc') (GNode.deps spec) with
        | error e => rw [hrd] at hout; cases hout
        | ok m =>
          rw [hrd] at hout
          have hout2 : Except.ok v = Except.map Val.vMark
              (List.foldr (fun itc acc => itc acc)
                (baseRunOf (evalDag σ fuel) d.entry input opts id spec) rest m) := hout
          cases hbase : List.foldr (fun itc acc => itc acc)
              (baseRunOf (evalDag σ fuel) d.entry input opts id spec) rest m with
          | error e =>
            rw [hbase] at hout2
            simp [Except.map] at hout2
          | ok w =>
            rw [hbase] at hout2
            simp only [Except.map] at hout2
            injection hout2 with hout2
            exact ⟨w, hout2⟩
  · intro σ fuel d input opts hitc id out hmem r hr v hok
    cases fuel with
    | zero => cases hmem
    | succ fuel =>
      simp only [evalDag] at hmem
      rcases foldl_outsStep_val _ _ [] (id, out) hmem with h0 | ⟨n, acc', hn, hout⟩
      · cases h0
      · obtain ⟨spec, _, hnspec⟩ :=
          assoc_buildNodes (evalDag σ fuel) d.entry input opts d.nodes id n hn
        subst hnspec
        simp only at hout
        rw [hitc] at hout
        subst hok
        unfold computeOut at hout
        cases hrd : readDeps (assoc acc') (GNode.deps spec) with
        | error e => rw [hrd] at hout; cases hout
        | ok m =>
          rw [hrd] at hout
          have hpre : presetOf d.entry input opts id = some r := by
            unfold presetOf
            rw [hr]
          have hout2 : Except.ok v
              = baseRunOf (evalDag σ fuel) d.entry input opts id spec m := hout
          have hfun := baseRunOf_preset (evalDag σ fuel) d.entry input opts id spec r hpre
          have hout3 : (Except.ok v : Except GoErr Val) = Except.ok r := by
            rw [hout2, hfun]
          exact Except.ok.inj hout3
  · intro ev ent input opts id ds sub depm hpre hfz
    have h1 : baseRunOf ev ent input opts id (.subdag ds sub none none)
        = fun dm =>
          if sub.frozen = false then
            .error (.wrap ("instantiate sub DAG failed") errDAGNotFrozen)
          else
            match aggregate (ev sub (Val.vMap dm) opts) with
            | .error err => .error (.wrap ("run sub DAG failed") err)
            | .ok m => .ok (Val.vMap m) := by
      unfold baseRunOf
      rw [hpre]
    rw [h1]
    simp [hfz]

/-- Witness for C9 at concrete inputs: a marked entry outcome, a preset node
result surviving to the outcome, and a sub-graph node's bound run evaluating
the inner DAG with the same options. -/
theorem c9_option_propagation_witness :
    (∃ w, Val.vMark (Val.vInt 4) = Val.vMark w)
    ∧ Val.vInt 9 = Val.vInt 9
    ∧ baseRunOf (fun _ _ _ => []) ("in") (.vInt 4) ⟨[], []⟩ ("sg")
        (.subdag [("in")] (.mk ("x") [(("x"), .entry)] true) none none) []
      = .ok (.vMap []) := by
  refine ⟨?_, ?_, ?_⟩
  · exact c9_option_propagation.1 (fun g => g.nodes.map Prod.fst) 1
      (.mk ("in") [(("in"), .entry)] true) (.vInt 4) ⟨[markItc], []⟩ [] rfl
      ("in") (.ok (.vMark (.vInt 4))) (List.mem_cons_self _ _)
      (.vMark (.vInt 4)) rfl
  · exact c9_option_propagation.2.1 (fun g => g.nodes.map Prod.fst) 1
      (.mk ("in") [(("in"), .entry),
        (("a"), .simple [("in")] (fun _ => .ok (.vInt 1)))] true)
      (.vInt 4) ⟨[], [(("a"), .vInt 9)]⟩ rfl
      ("a") (.ok (.vInt 9))
      (List.mem_cons_of_mem _ (List.mem_cons_self _ _))
      (.vInt 9) rfl (.vInt 9) rfl
  · exact (c9_option_propagation.2.2 (fun _ _ _ => []) ("in") (.vInt 4) ⟨[], []⟩
      ("sg") [("in")] (.mk ("x") [(("x"), .entry)] true) [] rfl rfl).trans rfl

theorem c2inv_setter {K : Nat} {α : Type} (z v : α) (e : Option GoErr)
    (s : Cell2 K α) (h : c2inv v e s) : c2inv v e (setterStep z v e s) := by
  obtain ⟨hst, hsn, hss, hper, hend⟩ := h
  cases hspc : s.spc with
  | t0 =>
    have hfree : s.status = .free := by rw [hst, hspc]; rfl
    have hstep : setterStep z v e s = { s with status := .doing, spc := .t1 } := by
      unfold setterStep
      rw [hspc, if_pos hfree]
    rw [hstep]
    refine ⟨rfl, fun _ => hsn (Or.inl hspc), ?_, fun i => hper i, ?_⟩
    · rintro (hc | hc | hc) <;> cases hc
    · intro hc
      cases hc
  | t1 =>
    have hstep : setterStep z v e s = { s with stored := some (v, e), spc := .t2 } := by
      unfold setterStep
      rw [hspc]
    rw [hstep]
    refine ⟨?_, ?_, fun _ => rfl, fun i => hper i, ?_⟩
    · show s.status = statusOf .t2
      rw [hst, hspc]
      rfl
    · rintro (hc | hc) <;> cases hc
    · intro hc
      cases hc
  | t2 =>
    have hstep : setterStep z v e s = { s with status := .done, spc := .tdrain } := by
      unfold setterStep
      rw [hspc]
    rw [hstep]
    refine ⟨rfl, ?_, fun _ => hss (Or.inl hspc), fun i => hper i, ?_⟩
    · rintro (hc | hc) <;> cases hc
    · intro hc
      cases hc
  | tdrain =>
    have hstored : s.stored = some (v, e) := hss (Or.inr (Or.inl hspc))
    cases hstack : s.stack with
    | nil =>
      have hstep : setterStep z v e s = { s with spc := .tEnd } := by
        unfold setterStep
        rw [hspc, hstack]
      rw [hstep]
      refine ⟨?_, ?_, fun _ => hstored, fun i => hper i, ?_⟩
      · show s.status = statusOf .tEnd
        rw [hst, hspc]
        rfl
      · rintro (hc | hc) <;> cases hc
      · intro _ j hj
        have hj' : j ∈ s.stack := hj
        rw [hstack] at hj'
        cases hj'
    | cons hd tl =>
      have hstep0 : setterStep z v e s = execOnce z { s with stack := tl } hd := by
        unfold setterStep
        rw [hspc, hstack]
      by_cases hl : s.latch hd = true
      · have hexec : execOnce z { s with stack := tl } hd
            = { s with stack := tl } := by
          unfold execOnce
          rw [if_pos (show ({ s with stack := tl } : Cell2 K α).latch hd = true from hl)]
        rw [hstep0, hexec]
        refine ⟨hst.trans (by rw [hspc]), hsn, fun _ => hstored, ?_, ?_⟩
        · intro i
          obtain ⟨hA, hB, hC, hD, hF, hG⟩ := hper i
          refine ⟨?_, ?_, hC, hD, ?_, ?_⟩
          · intro hpc
            obtain ⟨h1, h2, h3, h4⟩ := hA hpc
            refine ⟨h1, ?_, h3, h4⟩
            intro hin
            exact h2 (by rw [hstack]; exact List.mem_cons_of_mem _ hin)
          · intro hinl
            obtain ⟨h1, h2, h3, h4⟩ := hB hinl
            refine ⟨h1, h2, ?_, h4⟩
            intro hin
            exact h3 (by rw [hstack]; exact List.mem_cons_of_mem _ hin)
          · intro hpc hinl hlf
            have hmem := hF hpc hinl hlf
            rw [hstack] at hmem
            rcases List.mem_cons.mp hmem with heq | hin
            · rw [heq, hl] at hlf
              cases hlf
            · exact hin
          · intro hpc
            rcases hG hpc with hin | hlt
            · rw [hstack] at hin
              rcases List.mem_cons.mp hin with heq | hin
              · exact Or.inr (heq ▸ hl)
              · exact Or.inl hin
            · exact Or.inr hlt
        · intro hc
          rw [hspc] at hc
          cases hc
      · have hl' : s.latch hd = false := by
          cases hlv : s.latch hd
          · rfl
          · exact absurd hlv hl
        have hinl' : s.inl hd = false := by
          cases hiv : s.inl hd
          · rfl
          · obtain ⟨_, _, h3, _⟩ := (hper hd).2.1 hiv
            exact absurd (by rw [hstack]; exact List.mem_cons_self _ _) h3
        have hcalls : s.calls hd = [] := (hper hd).2.2.2.1 hl' hinl'
        have hexec : execOnce z { s with stack := tl } hd
            = { s with
                stack := tl
                latch := Function.update s.latch hd true
                calls := Function.update s.calls hd
                  (s.calls hd ++ [s.stored.getD (z, none)]) } := by
          unfold execOnce
          rw [if_neg (show ¬(({ s with stack := tl } : Cell2 K α).latch hd = true) from hl)]
        rw [hstep0, hexec]
        refine ⟨hst.trans (by rw [hspc]), hsn, fun _ => hstored, ?_, ?_⟩
        · intro i
          obtain ⟨hA, hB, hC, hD, hF, hG⟩ := hper i
          by_cases hihd : i = hd
          · subst hihd
            refine ⟨?_, ?_, ?_, ?_, ?_, ?_⟩
            · intro hpc
              obtain ⟨h1, h2, h3, h4⟩ := hA hpc
              exact absurd (by rw [hstack]; exact List.mem_cons_self _ _) h2
            · intro hinl
              have hinl2 : s.inl i = true := hinl
              rw [hinl'] at hinl2
              cases hinl2
            · intro _
              constructor
              · show Function.update s.calls i (s.calls i ++ [s.stored.getD (z, none)]) i
                  = [(v, e)]
                rw [Function.update_same, hcalls, hstored]
                rfl
              · exact hinl'
            · intro hlf
              have hlf2 : Function.update s.latch i true i = false := hlf
              rw [Function.update_same] at hlf2
              cases hlf2
            · intro _ _ hlf
              have hlf2 : Function.update s.latch i true i = false := hlf
              rw [Function.update_same] at hlf2
              cases hlf2
            · intro _
              exact Or.inr (Function.update_same _ _ _)
          · have hlu : Function.update s.latch hd true i = s.latch i :=
              Function.update_noteq hihd _ _
            have hcu : Function.update s.calls hd
                (s.calls hd ++ [s.stored.getD (z, none)]) i = s.calls i :=
              Function.update_noteq hihd _ _
            refine ⟨?_, ?_, ?_, ?_, ?_, ?_⟩
            · intro hpc
              obtain ⟨h1, h2, h3, h4⟩ := hA hpc
              exact ⟨hlu.trans h1,
                fun hin => h2 (by rw [hstack]; exact List.mem_cons_of_mem _ hin),
                h3, hcu.trans h4⟩
            · intro hinl
              obtain ⟨h1, h2, h3, h4⟩ := hB hinl
              exact ⟨h1, hlu.trans h2,
                fun hin => h3 (by rw [hstack]; exact List.mem_cons_of_mem _ hin),
                hcu.trans h4⟩
            · intro hlt
              have hlt2 : Function.update s.latch hd true i = true := hlt
              rw [hlu] at hlt2
              exact ⟨hcu.trans (hC hlt2).1, (hC hlt2).2⟩
            · intro hlf hinl
              have hlf2 : Function.update s.latch hd true i = false := hlf
              rw [hlu] at hlf2
              exact hcu.trans (hD hlf2 hinl)
            · intro hpc hinl hlf
              have hlf2 : Function.update s.latch hd true i = false := hlf
              rw [hlu] at hlf2
              have hmem := hF hpc hinl hlf2
              rw [hstack] at hmem
              rcases List.mem_cons.mp hmem with heq | hin
              · exact absurd heq hihd
              · exact hin
            · intro hpc
              rcases hG hpc with hin | hlt
              · rw [hstack] at hin
                rcases List.mem_cons.mp hin with heq | hin
                · exact absurd heq hihd
                · exact Or.inl hin
              · exact Or.inr (hlu.trans hlt)
        · intro hc
          rw [hspc] at hc
          cases hc
  | tEnd =>
    have hstep : setterStep z v e s = s := by
      unfold setterStep
      rw [hspc]
    rw [hstep]
    exact ⟨hst, hsn, hss, hper, hend⟩

theorem c2inv_sub {K : Nat} {α : Type} (z v : α) (e : Option GoErr)
    (s : Cell2 K α) (i0 : Fin K) (h : c2inv v e s) :
    c2inv v e (subStep z s i0) := by
  obtain ⟨hst, hsn, hss, hper, hend⟩ := h
  obtain ⟨hA0, hB0, hC0, hD0, hF0, hG0⟩ := hper i0
  cases hpc0 : s.pcs i0 with
  | u0 =>
    have hstep : subStep z s i0
        = { s with pcs := Function.update s.pcs i0 (.u1 s.stack) } := by
      unfold subStep
      rw [hpc0]
    rw [hstep]
    obtain ⟨ha1, ha2, ha3, ha4⟩ := hA0 (Or.inl hpc0)
    refine ⟨hst, hsn, hss, ?_, ?_⟩
    · intro i
      obtain ⟨hA, hB, hC, hD, hF, hG⟩ := hper i
      by_cases hii : i = i0
      · subst hii
        refine ⟨?_, ?_, hC, hD, ?_, ?_⟩
        · intro _
          exact ⟨ha1, ha2, ha3, ha4⟩
        · intro hinl
          rw [ha3] at hinl
          cases hinl
        · intro hpc
          have hpc2 : Function.update s.pcs i (.u1 s.stack) i = .uEnd := hpc
          rw [Function.update_same] at hpc2
          cases hpc2
        · intro hpc
          have hpc2 : Function.update s.pcs i (.u1 s.stack) i = .u3 := hpc
          rw [Function.update_same] at hpc2
          cases hpc2
      · have hpu : Function.update s.pcs i0 (.u1 s.stack) i = s.pcs i :=
          Function.update_noteq hii _ _
        refine ⟨?_, ?_, hC, hD, ?_, ?_⟩
        · intro hpc
          refine hA ?_
          rcases hpc with hpc | ⟨r, hpc⟩ | ⟨r, hpc⟩
          · exact Or.inl ((hpu.symm).trans hpc)
          · exact Or.inr (Or.inl ⟨r, (hpu.symm).trans hpc⟩)
          · exact Or.inr (Or.inr ⟨r, (hpu.symm).trans hpc⟩)
        · intro hinl
          obtain ⟨h1, h2, h3, h4⟩ := hB hinl
          exact ⟨hpu.trans h1, h2, h3, h4⟩
        · intro hpc hinl hlf
          exact hF (hpu.symm.trans hpc) hinl hlf
        · intro hpc
          exact hG (hpu.symm.trans hpc)
    · intro hcend j hj
      by_cases hji : j = i0
      · subst hji
        exact absurd hj ha2
      · rcases hend hcend j hj with hl | hp
        · exact Or.inl hl
        · exact Or.inr ((Function.update_noteq hji _ _).trans hp)
  | u1 reg =>
    by_cases hdone : s.status = .done
    · have hstored : s.stored = some (v, e) := by
        refine hss ?_
        cases hspcv : s.spc <;> rw [hst, hspcv] at hdone <;> first
          | exact Or.inl rfl
          | exact Or.inr (Or.inl rfl)
          | exact Or.inr (Or.inr rfl)
          | cases hdone
      have hstep0 : subStep z s i0
          = if s.status = CStatus.done
            then { s with
                   inl := Function.update s.inl i0 true
                   calls := Function.update s.calls i0
                     (s.calls i0 ++ [s.stored.getD (z, none)])
                   pcs := Function.update s.pcs i0 .uEnd }
            else { s with pcs := Function.update s.pcs i0 (.u2 reg) } := by
        unfold subStep
        rw [hpc0]
      have hstep : subStep z s i0
          = { s with
              inl := Function.update s.inl i0 true
              calls := Function.update s.calls i0
                (s.calls i0 ++ [s.stored.getD (z, none)])
              pcs := Function.update s.pcs i0 .uEnd } := by
        rw [hstep0, if_pos hdone]
      rw [hstep]
      obtain ⟨ha1, ha2, ha3, ha4⟩ := hA0 (Or.inr (Or.inl ⟨reg, hpc0⟩))
      refine ⟨hst, hsn, hss, ?_, ?_⟩
      · intro i
        obtain ⟨hA, hB, hC, hD, hF, hG⟩ := hper i
        by_cases hii : i = i0
        · subst hii
          refine ⟨?_, ?_, ?_, ?_, ?_, ?_⟩
          · rintro (hpc | ⟨r, hpc⟩ | ⟨r, hpc⟩) <;>
            · have hpc2 := (Function.update_same i _ s.pcs).symm.trans hpc
              cases hpc2
          · intro _
            refine ⟨Function.update_same _ _ _, ha1, ha2, ?_⟩
            have hcv : Function.update s.calls i
                (s.calls i ++ [s.stored.getD (z, none)]) i
                = s.calls i ++ [s.stored.getD (z, none)] :=
              Function.update_same _ _ _
            have hgoal : s.calls i ++ [s.stored.getD (z, none)] = [(v, e)] := by
              rw [ha4, hstored]
              rfl
            exact hcv.trans hgoal
          · intro hlt
            rw [ha1] at hlt
            cases hlt
          · intro _ hinl
            have hinl2 : Function.update s.inl i true i = false := hinl
            rw [Function.update_same] at hinl2
            cases hinl2
          · intro _ hinl
            have hinl2 : Function.update s.inl i true i = false := hinl
            rw [Function.update_same] at hinl2
            cases hinl2
          · intro hpc
            have hpc2 := (Function.update_same i SubPC.uEnd s.pcs).symm.trans hpc
            cases hpc2
        · have hpu : Function.update s.pcs i0 SubPC.uEnd i = s.pcs i :=
            Function.update_noteq hii _ _
          have hiu : Function.update s.inl i0 true i = s.inl i :=
            Function.update_noteq hii _ _
          have hcu : Function.update s.calls i0
              (s.calls i0 ++ [s.stored.getD (z, none)]) i = s.calls i :=
            Function.update_noteq hii _ _
          refine ⟨?_, ?_, ?_, ?_, ?_, ?_⟩
          · intro hpc
            obtain ⟨h1, h2, h3, h4⟩ := hA (by
              rcases hpc with hpc | ⟨r, hpc⟩ | ⟨r, hpc⟩
              · exact Or.inl (hpu.symm.trans hpc)
              · exact Or.inr (Or.inl ⟨r, hpu.symm.trans hpc⟩)
              · exact Or.inr (Or.inr ⟨r, hpu.symm.trans hpc⟩))
            exact ⟨h1, h2, hiu.trans h3, hcu.trans h4⟩
          · intro hinl
            obtain ⟨h1, h2, h3, h4⟩ := hB (hiu.symm.trans hinl)
            exact ⟨hpu.trans h1, h2, h3, hcu.trans h4⟩
          · intro hlt
            obtain ⟨h1, h2⟩ := hC hlt
            exact ⟨hcu.trans h1, hiu.trans h2⟩
          · intro hlf hinl
            exact hcu.trans (hD hlf (hiu.symm.trans hinl))
          · intro hpc hinl hlf
            exact hF (hpu.symm.trans hpc) (hiu.symm.trans hinl) hlf
          · intro hpc
            exact hG (hpu.symm.trans hpc)
      · intro hcend j hj
        by_cases hji : j = i0
        · subst hji
          exact absurd hj ha2
        · rcases hend hcend j hj with hl | hp
          · exact Or.inl hl
          · exact Or.inr ((Function.update_noteq hji _ _).trans hp)
    · have hstep0 : subStep z s i0
          = if s.status = CStatus.done
            then { s with
                   inl := Function.update s.inl i0 true
                   calls := Function.update s.calls i0
                     (s.calls i0 ++ [s.stored.getD (z, none)])
                   pcs := Function.update s.pcs i0 .uEnd }
            else { s with pcs := Function.update s.pcs i0 (.u2 reg) } := by
        unfold subStep
        rw [hpc0]
      have hstep : subStep z s i0
          = { s with pcs := Function.update s.pcs i0 (.u2 reg) } := by
        rw [hstep0, if_neg hdone]
      rw [hstep]
      obtain ⟨ha1, ha2, ha3, ha4⟩ := hA0 (Or.inr (Or.inl ⟨reg, hpc0⟩))
      refine ⟨hst, hsn, hss, ?_, ?_⟩
      · intro i
        obtain ⟨hA, hB, hC, hD, hF, hG⟩ := hper i
        by_cases hii : i = i0
        · subst hii
          refine ⟨?_, ?_, hC, hD, ?_, ?_⟩
          · intro _
            exact ⟨ha1, ha2, ha3, ha4⟩
          · intro hinl
            rw [ha3] at hinl
            cases hinl
          · intro hpc
            have hpc2 := (Function.update_same i (SubPC.u2 reg) s.pcs).symm.trans hpc
            cases hpc2
          · intro hpc
            have hpc2 := (Function.update_same i (SubPC.u2 reg) s.pcs).symm.trans hpc
            cases hpc2
        · have hpu : Function.update s.pcs i0 (.u2 reg) i = s.pcs i :=
            Function.update_noteq hii _ _
          refine ⟨?_, ?_, hC, hD, ?_, ?_⟩
          · intro hpc
            refine hA ?_
            rcases hpc with hpc | ⟨r, hpc⟩ | ⟨r, hpc⟩
            · exact Or.inl (hpu.symm.trans hpc)
            · exact Or.inr (Or.inl ⟨r, hpu.symm.trans hpc⟩)
            · exact Or.inr (Or.inr ⟨r, hpu.symm.trans hpc⟩)
          · intro hinl
            obtain ⟨h1, h2, h3, h4⟩ := hB hinl
            exact ⟨hpu.trans h1, h2, h3, h4⟩
          · intro hpc hinl hlf
            exact hF (hpu.symm.trans hpc) hinl hlf
          · intro hpc
            exact hG (hpu.symm.trans hpc)
      · intro hcend j hj
        by_cases hji : j = i0
        · subst hji
          exact absurd hj ha2
        · rcases hend hcend j hj with hl | hp
          · exact Or.inl hl
          · exact Or.inr ((Function.update_noteq hji _ _).trans hp)
  | u2 reg =>
    obtain ⟨ha1, ha2, ha3, ha4⟩ := hA0 (Or.inr (Or.inr ⟨reg, hpc0⟩))
    by_cases hcas : s.stack = reg
    · have hstep0 : subStep z s i0
          = if s.stack = reg
            then { s with
                   stack := i0 :: reg
                   pcs := Function.update s.pcs i0 .u3 }
            else { s with pcs := Function.update s.pcs i0 .u0 } := by
        unfold subStep
        rw [hpc0]
      have hstep : subStep z s i0
          = { s with
              stack := i0 :: reg
              pcs := Function.update s.pcs i0 .u3 } := by
        rw [hstep0, if_pos hcas]
      rw [hstep]
      refine ⟨hst, hsn, hss, ?_, ?_⟩
      · intro i
        obtain ⟨hA, hB, hC, hD, hF, hG⟩ := hper i
        by_cases hii : i = i0
        · subst hii
          refine ⟨?_, ?_, hC, hD, ?_, ?_⟩
          · rintro (hpc | ⟨r, hpc⟩ | ⟨r, hpc⟩) <;>
            · have hpc2 := (Function.update_same i _ s.pcs).symm.trans hpc
              cases hpc2
          · intro hinl
            rw [ha3] at hinl
            cases hinl
          · intro hpc
            have hpc2 := (Function.update_same i SubPC.u3 s.pcs).symm.trans hpc
            cases hpc2
          · intro _
            exact Or.inl (List.mem_cons_self _ _)
        · have hpu : Function.update s.pcs i0 SubPC.u3 i = s.pcs i :=
            Function.update_noteq hii _ _
          refine ⟨?_, ?_, hC, hD, ?_, ?_⟩
          · intro hpc
            obtain ⟨h1, h2, h3, h4⟩ := hA (by
              rcases hpc with hpc | ⟨r, hpc⟩ | ⟨r, hpc⟩
              · exact Or.inl (hpu.symm.trans hpc)
              · exact Or.inr (Or.inl ⟨r, hpu.symm.trans hpc⟩)
              · exact Or.inr (Or.inr ⟨r, hpu.symm.trans hpc⟩))
            refine ⟨h1, ?_, h3, h4⟩
            intro hin
            rcases List.mem_cons.mp hin with heq | hin
            · exact hii heq
            · exact h2 (hcas ▸ hin)
          · intro hinl
            obtain ⟨h1, h2, h3, h4⟩ := hB hinl
            refine ⟨hpu.trans h1, h2, ?_, h4⟩
            intro hin
            rcases List.mem_cons.mp hin with heq | hin
            · exact hii heq
            · exact h3 (hcas ▸ hin)
          · intro hpc hinl hlf
            have hin := hF (hpu.symm.trans hpc) hinl hlf
            exact List.mem_cons_of_mem _ (hcas ▸ hin)
          · intro hpc
            rcases hG (hpu.symm.trans hpc) with hin | hlt
            · exact Or.inl (List.mem_cons_of_mem _ (hcas ▸ hin))
            · exact Or.inr hlt
      · intro hcend j hj
        rcases List.mem_cons.mp hj with heq | hj'
        · subst heq
          exact Or.inr (Function.update_same _ _ _)
        · by_cases hji : j = i0
          · subst hji
            exact absurd (hcas ▸ hj') ha2
          · rcases hend hcend j (hcas ▸ hj') with hl | hp
            · exact Or.inl hl
            · exact Or.inr ((Function.update_noteq hji _ _).trans hp)
    · have hstep0 : subStep z s i0
          = if s.stack = reg
            then { s with
                   stack := i0 :: reg
                   pcs := Function.update s.pcs i0 .u3 }
            else { s with pcs := Function.update s.pcs i0 .u0 } := by
        unfold subStep
        rw [hpc0]
      have hstep : subStep z s i0
          = { s with pcs := Function.update s.pcs i0 .u0 } := by
        rw [hstep0, if_neg hcas]
      rw [hstep]
      refine ⟨hst, hsn, hss, ?_, ?_⟩
      · intro i
        obtain ⟨hA, hB, hC, hD, hF, hG⟩ := hper i
        by_cases hii : i = i0
        · subst hii
          refine ⟨?_, ?_, hC, hD, ?_, ?_⟩
          · intro _
            exact ⟨ha1, ha2, ha3, ha4⟩
          · intro hinl
            rw [ha3] at hinl
            cases hinl
          · intro hpc
            have hpc2 := (Function.update_same i SubPC.u0 s.pcs).symm.trans hpc
            cases hpc2
          · intro hpc
            have hpc2 := (Function.update_same i SubPC.u0 s.pcs).symm.trans hpc
            cases hpc2
        · have hpu : Function.update s.pcs i0 SubPC.u0 i = s.pcs i :=
            Function.update_noteq hii _ _
          refine ⟨?_, ?_, hC, hD, ?_, ?_⟩
          · intro hpc
            refine hA ?_
            rcases hpc with hpc | ⟨r, hpc⟩ | ⟨r, hpc⟩
            · exact Or.inl (hpu.symm.trans hpc)
            · exact Or.inr (Or.inl ⟨r, hpu.symm.trans hpc⟩)
            · exact Or.inr (Or.inr ⟨r, hpu.symm.trans hpc⟩)
          · intro hinl
            obtain ⟨h1, h2, h3, h4⟩ := hB hinl
            exact ⟨hpu.trans h1, h2, h3, h4⟩
          · intro hpc hinl hlf
            exact hF (hpu.symm.trans hpc) hinl hlf
          · intro hpc
            exact hG (hpu.symm.trans hpc)
      · intro hcend j hj
        by_cases hji : j = i0
        · subst hji
          exact absurd hj ha2
        · rcases hend hcend j hj with hl | hp
          · exact Or.inl hl
          · exact Or.inr ((Function.update_noteq hji _ _).trans hp)
  | u3 =>
    have hinl0 : s.inl i0 = false := by
      cases hiv : s.inl i0
      · rfl
      · obtain ⟨h1, _, _, _⟩ := hB0 hiv
        rw [hpc0] at h1
        cases h1
    by_cases hdone : s.status = .done
    · have hstored : s.stored = some (v, e) := by
        refine hss ?_
        cases hspcv : s.spc <;> rw [hst, hspcv] at hdone <;> first
          | exact Or.inl rfl
          | exact Or.inr (Or.inl rfl)
          | exact Or.inr (Or.inr rfl)
          | cases hdone
      by_cases hl : s.latch i0 = true
      · have hstep0 : subStep z s i0
            = { (if s.status = CStatus.done then execOnce z s i0 else s) with
                pcs := Function.update
                  (if s.status = CStatus.done then execOnce z s i0 else s).pcs
                  i0 .uEnd } := by
          unfold subStep
          rw [hpc0]
        have hexec : execOnce z s i0 = s := by
          unfold execOnce
          rw [if_pos hl]
        have hstep : subStep z s i0
            = { s with pcs := Function.update s.pcs i0 .uEnd } := by
          rw [hstep0, if_pos hdone, hexec]
        rw [hstep]
        refine ⟨hst, hsn, hss, ?_, ?_⟩
        · intro i
          obtain ⟨hA, hB, hC, hD, hF, hG⟩ := hper i
          by_cases hii : i = i0
          · subst hii
            refine ⟨?_, ?_, hC, ?_, ?_, ?_⟩
            · rintro (hpc | ⟨r, hpc⟩ | ⟨r, hpc⟩) <;>
              · have hpc2 := (Function.update_same i _ s.pcs).symm.trans hpc
                cases hpc2
            · intro hinl
              rw [hinl0] at hinl
              cases hinl
            · intro hlf _
              rw [hl] at hlf
              cases hlf
            · intro _ _ hlf
              rw [hl] at hlf
              cases hlf
            · intro hpc
              have hpc2 := (Function.update_same i SubPC.uEnd s.pcs).symm.trans hpc
              cases hpc2
          · have hpu : Function.update s.pcs i0 SubPC.uEnd i = s.pcs i :=
              Function.update_noteq hii _ _
            refine ⟨?_, ?_, hC, hD, ?_, ?_⟩
            · intro hpc
              refine hA ?_
              rcases hpc with hpc | ⟨r, hpc⟩ | ⟨r, hpc⟩
              · exact Or.inl (hpu.symm.trans hpc)
              · exact Or.inr (Or.inl ⟨r, hpu.symm.trans hpc⟩)
              · exact Or.inr (Or.inr ⟨r, hpu.symm.trans hpc⟩)
            · intro hinl
              obtain ⟨h1, h2, h3, h4⟩ := hB hinl
              exact ⟨hpu.trans h1, h2, h3, h4⟩
            · intro hpc hinl hlf
              exact hF (hpu.symm.trans hpc) hinl hlf
            · intro hpc
              exact hG (hpu.symm.trans hpc)
        · intro hcend j hj
          by_cases hji : j = i0
          · subst hji
            exact Or.inl hl
          · rcases hend hcend j hj with hlj | hp
            · exact Or.inl hlj
            · exact Or.inr ((Function.update_noteq hji _ _).trans hp)
      · have hl' : s.latch i0 = false := by
          cases hlv : s.latch i0
          · rfl
          · exact absurd hlv hl
        have hcalls : s.calls i0 = [] := hD0 hl' hinl0
        have hstep0 : subStep z s i0
            = { (if s.status = CStatus.done then execOnce z s i0 else s) with
                pcs := Function.update
                  (if s.status = CStatus.done then execOnce z s i0 else s).pcs
                  i0 .uEnd } := by
          unfold subStep
          rw [hpc0]
        have hexec : execOnce z s i0
            = { s with
                latch := Function.update s.latch i0 true
                calls := Function.update s.calls i0
                  (s.calls i0 ++ [s.stored.getD (z, none)]) } := by
          unfold execOnce
          rw [if_neg hl]
        have hstep : subStep z s i0
            = { s with
                latch := Function.update s.latch i0 true
                calls := Function.update s.calls i0
                  (s.calls i0 ++ [s.stored.getD (z, none)])
                pcs := Function.update s.pcs i0 .uEnd } := by
          rw [hstep0, if_pos hdone, hexec]
        rw [hstep]
        refine ⟨hst, hsn, hss, ?_, ?_⟩
        · intro i
          obtain ⟨hA, hB, hC, hD, hF, hG⟩ := hper i
          by_cases hii : i = i0
          · subst hii
            refine ⟨?_, ?_, ?_, ?_, ?_, ?_⟩
            · rintro (hpc | ⟨r, hpc⟩ | ⟨r, hpc⟩) <;>
              · have hpc2 := (Function.update_same i _ s.pcs).symm.trans hpc
                cases hpc2
            · intro hinl
              rw [hinl0] at hinl
              cases hinl
            · intro _
              constructor
              · have hcv : Function.update s.calls i
                    (s.calls i ++ [s.stored.getD (z, none)]) i
                    = s.calls i ++ [s.stored.getD (z, none)] :=
                  Function.update_same _ _ _
                have hgoal : s.calls i ++ [s.stored.getD (z, none)] = [(v, e)] := by
                  rw [hcalls, hstored]
                  rfl
                exact hcv.trans hgoal
              · exact hinl0
            · intro hlf _
              have hlf2 := (Function.update_same i true s.latch).symm.trans hlf
              cases hlf2
            · intro _ _ hlf
              have hlf2 := (Function.update_same i true s.latch).symm.trans hlf
              cases hlf2
            · intro hpc
              have hpc2 := (Function.update_same i SubPC.uEnd s.pcs).symm.trans hpc
              cases hpc2
          · have hpu : Function.update s.pcs i0 SubPC.uEnd i = s.pcs i :=
              Function.update_noteq hii _ _
            have hlu : Function.update s.latch i0 true i = s.latch i :=
              Function.update_noteq hii _ _
            have hcu : Function.update s.calls i0
                (s.calls i0 ++ [s.stored.getD (z, none)]) i = s.calls i :=
              Function.update_noteq hii _ _
            refine ⟨?_, ?_, ?_, ?_, ?_, ?_⟩
            · intro hpc
              obtain ⟨h1, h2, h3, h4⟩ := hA (by
                rcases hpc with hpc | ⟨r, hpc⟩ | ⟨r, hpc⟩
                · exact Or.inl (hpu.symm.trans hpc)
                · exact Or.inr (Or.inl ⟨r, hpu.symm.trans hpc⟩)
                · exact Or.inr (Or.inr ⟨r, hpu.symm.trans hpc⟩))
              exact ⟨hlu.trans h1, h2, h3, hcu.trans h4⟩
            · intro hinl
              obtain ⟨h1, h2, h3, h4⟩ := hB hinl
              exact ⟨hpu.trans h1, hlu.trans h2, h3, hcu.trans h4⟩
            · intro hlt
              obtain ⟨h1, h2⟩ := hC (hlu.symm.trans hlt)
              exact ⟨hcu.trans h1, h2⟩
            · intro hlf hinl
              exact hcu.trans (hD (hlu.symm.trans hlf) hinl)
            · intro hpc hinl hlf
              exact hF (hpu.symm.trans hpc) hinl (hlu.symm.trans hlf)
            · intro hpc
              rcases hG (hpu.symm.trans hpc) with hin | hlt
              · exact Or.inl hin
              · exact Or.inr (hlu.trans hlt)
        · intro hcend j hj
          by_cases hji : j = i0
          · subst hji
            exact Or.inl (Function.update_same _ _ _)
          · rcases hend hcend j hj with hlj | hp
            · exact Or.inl ((Function.update_noteq hji _ _).trans hlj)
            · exact Or.inr ((Function.update_noteq hji _ _).trans hp)
    · have hstep0 : subStep z s i0
          = { (if s.status = CStatus.done then execOnce z s i0 else s) with
              pcs := Function.update
                (if s.status = CStatus.done then execOnce z s i0 else s).pcs
                i0 .uEnd } := by
        unfold subStep
        rw [hpc0]
      have hstep : subStep z s i0
          = { s with pcs := Function.update s.pcs i0 .uEnd } := by
        rw [hstep0, if_neg hdone]
      rw [hstep]
      have hnotend : s.spc ≠ .tEnd := by
        intro hc
        rw [hst, hc] at hdone
        exact hdone rfl
      refine ⟨hst, hsn, hss, ?_, ?_⟩
      · intro i
        obtain ⟨hA, hB, hC, hD, hF, hG⟩ := hper i
        by_cases hii : i = i0
        · subst hii
          refine ⟨?_, ?_, hC, hD, ?_, ?_⟩
          · rintro (hpc | ⟨r, hpc⟩ | ⟨r, hpc⟩) <;>
            · have hpc2 := (Function.update_same i _ s.pcs).symm.trans hpc
              cases hpc2
          · intro hinl
            rw [hinl0] at hinl
            cases hinl
          · intro _ _ hlf
            rcases hG0 hpc0 with hin | hlt
            · exact hin
            · rw [hlf] at hlt
              cases hlt
          · intro hpc
            have hpc2 := (Function.update_same i SubPC.uEnd s.pcs).symm.trans hpc
            cases hpc2
        · have hpu : Function.update s.pcs i0 SubPC.uEnd i = s.pcs i :=
            Function.update_noteq hii _ _
          refine ⟨?_, ?_, hC, hD, ?_, ?_⟩
          · intro hpc
            refine hA ?_
            rcases hpc with hpc | ⟨r, hpc⟩ | ⟨r, hpc⟩
            · exact Or.inl (hpu.symm.trans hpc)
            · exact Or.inr (Or.inl ⟨r, hpu.symm.trans hpc⟩)
            · exact Or.inr (Or.inr ⟨r, hpu.symm.trans hpc⟩)
          · intro hinl
            obtain ⟨h1, h2, h3, h4⟩ := hB hinl
            exact ⟨hpu.trans h1, h2, h3, h4⟩
          · intro hpc hinl hlf
            exact hF (hpu.symm.trans hpc) hinl hlf
          · intro hpc
            exact hG (hpu.symm.trans hpc)
      · intro hcend
        exact absurd hcend hnotend
  | uEnd =>
    have hstep : subStep z s i0 = s := by
      unfold subStep
      rw [hpc0]
    rw [hstep]
    exact ⟨hst, hsn, hss, hper, hend⟩

theorem c2inv_init (K : Nat) {α : Type} (v : α) (e : Option GoErr) :
    c2inv v e (c2init K α) := by
  refine ⟨rfl, fun _ => rfl, ?_, ?_, ?_⟩
  · rintro (h | h | h) <;> cases h
  · intro i
    refine ⟨fun _ => ⟨rfl, List.not_mem_nil _, rfl, rfl⟩, ?_, ?_, fun _ _ => rfl,
      ?_, ?_⟩
    · intro h
      cases h
    · intro h
      cases h
    · intro h
      cases h
    · intro h
      cases h
  · intro h
    cases h

theorem c2inv_foldl {K : Nat} {α : Type} (z v : α) (e : Option GoErr)
    (cs : List (Ch K)) :
    ∀ s : Cell2 K α, c2inv v e s → c2inv v e (cs.foldl (c2step z v e) s) := by
  induction cs with
  | nil =>
    intro s h
    exact h
  | cons c cs ih =>
    intro s h
    refine ih _ ?_
    cases c with
    | setter => exact c2inv_setter z v e s h
    | sub i => exact c2inv_sub z v e s i h

/-- C2: `state.subscribe` guarantees exactly-once callback delivery with the
settled pair. In the interleaved model of one `set(v, e)` thread and `K`
`subscribe` threads over the lock-free cell (push onto the waiter stack, with
an inline re-check of `isDone` after a failed or raced push, and a
`sync.Once`-latched callback drained by the setter), every terminating
schedule leaves each subscriber's callback executed exactly once, with
arguments exactly the settled `(v, e)` pair — never zero times and never
twice, regardless of how the setter's drain races the subscribers' inline
fires. -/
theorem c2_subscribe_exactly_once (K : Nat) {α : Type} (z v : α)
    (e : Option GoErr) (cs : List (Ch K))
    (hc : c2complete (c2run K z v e cs)) :
    ∀ i : Fin K, (c2run K z v e cs).calls i = [(v, e)] := by
  have hinv : c2inv v e (c2run K z v e cs) :=
    c2inv_foldl z v e cs (c2init K α) (c2inv_init K v e)
  obtain ⟨hst, hsn, hss, hper, hend⟩ := hinv
  obtain ⟨hspc, hpcs⟩ := hc
  intro i
  obtain ⟨hA, hB, hC, hD, hF, hG⟩ := hper i
  by_cases hinl : (c2run K z v e cs).inl i = true
  · exact (hB hinl).2.2.2
  · have hinl' : (c2run K z v e cs).inl i = false := by
      cases hiv : (c2run K z v e cs).inl i
      · rfl
      · exact absurd hiv hinl
    by_cases hlt : (c2run K z v e cs).latch i = true
    · exact (hC hlt).1
    · have hlt' : (c2run K z v e cs).latch i = false := by
        cases hlv : (c2run K z v e cs).latch i
        · rfl
        · exact absurd hlv hlt
      have hin := hF (hpcs i) hinl' hlt'
      rcases hend hspc i hin with h | h
      · exact absurd h hlt
      · rw [hpcs i] at h
        cases h

theorem c2_subscribe_exactly_once_witness :
    c2complete (c2run 1 (0 : Nat) 7 none
      [Ch.sub 0, Ch.sub 0, Ch.sub 0, Ch.setter, Ch.setter, Ch.setter,
       Ch.setter, Ch.setter, Ch.sub 0])
    ∧ (c2run 1 (0 : Nat) 7 none
      [Ch.sub 0, Ch.sub 0, Ch.sub 0, Ch.setter, Ch.setter, Ch.setter,
       Ch.setter, Ch.setter, Ch.sub 0]).calls 0 = [(7, none)] :=
  ⟨by decide,
   c2_subscribe_exactly_once 1 0 7 none
     [Ch.sub 0, Ch.sub 0, Ch.sub 0, Ch.setter, Ch.setter, Ch.setter,
      Ch.setter, Ch.setter, Ch.sub 0] (by decide) 0⟩
